import Mathlib

/-!
Verification development for the Artera helper-function repository.

The definitions below are a shallow embedding of the core logic of the
repository's Python sources:

* `src/Test.py` — column inference (`infer_column_map`, `_best_match_column`,
  `_norm`), full-name splitting (`_split_full_name`), date formatting
  (`_to_yyyymmdd`), the schema normalizer (`build_artera_upload_from_df`) and
  the multi-sheet selector loop of `build_artera_upload_from_excel`.
* `src/Azara_Derived_Filtering.py` — the outreach filtering pipeline
  (`build_outreach_list`, `to_datetime_col`, `APPT_TYPE_REGEX`,
  `APPT_LOC_REGEX`).

Tables (pandas DataFrames) are modelled as a list of column labels plus a list
of rows, each row a list of cells aligned with the labels.  Cells for the
normalizer are `Option String` (`none` models pandas NA); cells for the
filtering pipeline carry an extra datetime constructor (`FCell.dtv`), a date
as a day number, since that pipeline coerces columns to datetime and compares
them.  Python `dict` semantics (insertion order, later writes overwrite the
value but keep the key position) are modelled explicitly where the source
relies on them.
-/

namespace Artera

/-! ### Python string primitives -/

/-- Python whitespace characters as matched by `\s` and `str.strip()`
(ASCII subset; the sources only ever meet ASCII labels). -/
def isPyWs (c : Char) : Bool :=
  c = ' ' || c = '\t' || c = '\n' || c = '\r' || c = '\x0b' || c = '\x0c'

/-- Drop leading and trailing Python whitespace, as `str.strip()`. -/
def pyStripChars (l : List Char) : List Char :=
  ((l.dropWhile isPyWs).reverse.dropWhile isPyWs).reverse

/-- Collapse every maximal run of whitespace to a single space
(the effect of `re.sub(r"\s+", " ", s)` on a stripped string). -/
def collapseWsGo : List Char → Bool → List Char
  | [], _ => []
  | c :: rest, prevWs =>
    if isPyWs c then
      if prevWs then collapseWsGo rest true
      else ' ' :: collapseWsGo rest true
    else c :: collapseWsGo rest false

/-- Python `str.lower()` (ASCII case mapping, characterwise). -/
def pyLower (s : String) : String :=
  ⟨s.data.map Char.toLower⟩

/-- Python `str.upper()` (ASCII case mapping, characterwise). -/
def pyUpper (s : String) : String :=
  ⟨s.data.map Char.toUpper⟩

/-- `_norm` from `src/Test.py` line 39: strip, lower-case, collapse
internal whitespace runs to a single space. -/
def pyNorm (s : String) : String :=
  ⟨collapseWsGo (pyStripChars (pyLower s).data) false⟩

/-- Whether `sep` is an initial segment of `l`. -/
def leadsWith : List Char → List Char → Bool
  | [], _ => true
  | _ :: _, [] => false
  | a :: as, b :: bs => a = b && leadsWith as bs

/-- Index of the first occurrence of `sep` in `l` (`str.find`). -/
def findSepIdx (sep : List Char) : List Char → Option Nat
  | [] => if leadsWith sep [] then some 0 else none
  | c :: t => if leadsWith sep (c :: t) then some 0 else (findSepIdx sep t).map (· + 1)

/-- Python substring test `needle in hay` for strings. -/
def occursIn (needle hay : String) : Bool :=
  (findSepIdx needle.data hay.data).isSome

/-- Case-insensitive substring containment, the effect of
`str.contains(..., flags=re.IGNORECASE)` with a literal pattern. -/
def occursInCI (needle hay : String) : Bool :=
  occursIn (pyLower needle) (pyLower hay)

/-- `value.split(sep, 1)`: split at the first occurrence of `sep`, or
`none` when `sep` does not occur. -/
def splitOnce (sep : String) (v : String) : Option (String × String) :=
  match findSepIdx sep.data v.data with
  | none => none
  | some i => some (⟨v.data.take i⟩, ⟨v.data.drop (i + sep.data.length)⟩)

/-! ### Python dict built by `{_norm(c): c for c in df.columns}`

A dict comprehension keeps the first-insertion position of each key but the
value written last.  We model it as an association list with an in-place
updating insert. -/

def dictInsert : List (String × String) → String → String → List (String × String)
  | [], k, v => [(k, v)]
  | (k', v') :: t, k, v =>
    if k' = k then (k', v) :: t else (k', v') :: dictInsert t k v

/-- The dict `{_norm(c): c for c in df.columns.astype(str)}` from
`_best_match_column` (`src/Test.py` line 45), as an ordered association
list from normalized label to original label. -/
def dictOfNorms (cols : List String) : List (String × String) :=
  cols.foldl (fun d c => dictInsert d (pyNorm c) c) []

/-! ### Generic table model -/

/-- A pandas DataFrame: ordered column labels and rows of cells.
Rows of a real DataFrame always have exactly one cell per column; that
rectangularity is the `WellFormed` predicate below. -/
structure DF (α : Type) where
  cols : List String
  rows : List (List α)
deriving DecidableEq

/-- Rectangularity of a table: every row has one cell per column. -/
def DF.WellFormed {α : Type} (df : DF α) : Prop :=
  ∀ r ∈ df.rows, r.length = df.cols.length

instance {α : Type} (df : DF α) : Decidable df.WellFormed := by
  unfold DF.WellFormed; infer_instance

/-- Index of a column label (first occurrence), `df.columns.get_loc`. -/
def DF.colIdx {α : Type} (df : DF α) (c : String) : Option Nat :=
  df.cols.findIdx? (· = c)

/-- Column presence, Python `c in df.columns`. -/
def DF.hasCol {α : Type} (df : DF α) (c : String) : Bool :=
  (df.colIdx c).isSome

/-- The cells of column `c` in row order (`df[c]`); `nv` is the NA cell
used to read past the end of a malformed row.  Returns `[]` if the column
is absent (callers guard on `hasCol`). -/
def DF.getColD {α : Type} (nv : α) (df : DF α) (c : String) : List α :=
  match df.colIdx c with
  | some i => df.rows.map (fun r => r.getD i nv)
  | none => []

/-- `df[c] = vals`: overwrite an existing column in place, or append a new
column at the end (pandas column assignment). -/
def DF.setCol {α : Type} (df : DF α) (c : String) (vals : List α) : DF α :=
  match df.colIdx c with
  | some i => ⟨df.cols, List.zipWith (fun r v => r.set i v) df.rows vals⟩
  | none => ⟨df.cols ++ [c], List.zipWith (fun r v => r ++ [v]) df.rows vals⟩

/-- Keep the rows whose mask entry is `true` (boolean indexing `df[mask]`). -/
def maskRows {α : Type} (rows : List (List α)) (mask : List Bool) : List (List α) :=
  (rows.zip mask).filterMap (fun rb => if rb.2 then some rb.1 else none)

/-- `df.drop_duplicates()`: remove exact duplicate rows, keeping the first
occurrence, preserving order. -/
def dedupFirstAux {α : Type} [DecidableEq α] (seen : List (List α)) :
    List (List α) → List (List α)
  | [] => []
  | r :: rest =>
    if r ∈ seen then dedupFirstAux seen rest
    else r :: dedupFirstAux (r :: seen) rest

def dedupFirst {α : Type} [DecidableEq α] (rows : List (List α)) : List (List α) :=
  dedupFirstAux [] rows

/-! ### Canonical fields and alias table -/

/-- The canonical fields of `COLUMN_ALIASES` (`src/Test.py` lines 17–30). -/
inductive Field where
  | full_name | first_name | last_name | dob | mrn | gender
  | phone | email | language | home_phone | work_phone | middle_name
deriving DecidableEq, Repr

/-- `COLUMN_ALIASES` from `src/Test.py` lines 17–30, verbatim. -/
def aliases : Field → List String
  | .full_name => ["name", "patient name", "member name", "full name"]
  | .first_name => ["first name", "given name", "patient first name", "first_name"]
  | .last_name => ["last name", "surname", "family name", "patient last name", "last_name"]
  | .dob => ["dob", "date of birth", "birthdate", "birth date"]
  | .mrn => ["mrn", "person id", "patient id", "medical record number", "chart number", "member id"]
  | .gender => ["sex at birth", "gender", "birth sex", "assigned sex at birth", "biological sex"]
  | .phone => ["phone", "cell", "cell phone", "mobile", "mobile phone", "primary phone", "person phone"]
  | .email => ["email", "email address", "person email", "patient email"]
  | .language => ["language", "preferred language", "person language", "primary language"]
  | .home_phone => ["home phone"]
  | .work_phone => ["work phone"]
  | .middle_name => ["middle name", "mid name", "middle initial"]

/-! ### Normalizer cells -/

/-- A cell of a table fed to the normalizer: a string value or pandas NA. -/
abbrev NCell := Option String

/-- `series.astype(str)` on one cell: NA stringifies to `"nan"`. -/
def astypeStrN (c : NCell) : String :=
  match c with
  | some v => v
  | none => "nan"

/-! ### Column inference (`src/Test.py` lines 42–64) -/

/-- The `contains` scan of `_best_match_column` (lines 50–53): iterate the
normalized-label dict in insertion order, return the first original label
whose normalized form contains a (nonempty) candidate. -/
def containsScan (pairs : List (String × String)) (candN : List String) : Option String :=
  pairs.findSome? (fun kv =>
    if candN.any (fun c => !c.isEmpty && occursIn c kv.1) then some kv.2 else none)

/-- `_best_match_column(df, candidates)` (`src/Test.py` lines 42–54):
exact normalized match first, then substring scan; `None` on an empty
table. -/
def bestMatchColumn {α : Type} (df : DF α) (candidates : List String) : Option String :=
  if df.rows.isEmpty || df.cols.isEmpty then none
  else
    let pairs := dictOfNorms df.cols
    let candN := candidates.map pyNorm
    match candN.findSome? (fun c => pairs.lookup c) with
    | some orig => some orig
    | none => containsScan pairs candN

/-- `infer_column_map(df)` (`src/Test.py` lines 56–64) with the default
alias table (no `extra_aliases`). -/
def inferColumnMap {α : Type} (df : DF α) : Field → Option String :=
  fun f => bestMatchColumn df (aliases f)

/-! ### Date parsing and formatting

`pd.to_datetime(..., errors="coerce")` accepts a large family of formats and
rejects strings outside the `Timestamp` range (years 1677–2262); unparseable
input becomes NaT.  We model the common dash/slash formats (`YYYY-MM-DD`,
`YYYY/MM/DD`, `MM/DD/YYYY`) with real calendar validation, restricted to
years 1678–2261 (strictly inside the `Timestamp` range); everything else
parses to `none` (NaT). -/

/-- Gregorian leap-year rule. -/
def isLeap (y : Nat) : Bool :=
  (y % 4 = 0 && y % 100 ≠ 0) || y % 400 = 0

/-- Days in a month of the proleptic Gregorian calendar. -/
def daysInMonth (y m : Nat) : Nat :=
  if m = 2 then (if isLeap y then 29 else 28)
  else if m = 4 || m = 6 || m = 9 || m = 11 then 30
  else 31

/-- Validity of a year/month/day triple within the modelled range. -/
def validYmd (y m d : Nat) : Bool :=
  1678 ≤ y && y ≤ 2261 && 1 ≤ m && m ≤ 12 && 1 ≤ d && d ≤ daysInMonth y m

/-- Split a character list at every character satisfying `p`, keeping
empty segments. -/
def splitChars (p : Char → Bool) : List Char → List (List Char)
  | [] => [[]]
  | c :: t =>
    let r := splitChars p t
    if p c then [] :: r
    else
      match r with
      | [] => [[c]]
      | h :: hs => (c :: h) :: hs

/-- The numeric value of a nonempty all-digit character list. -/
def charsToNat? (l : List Char) : Option Nat :=
  if !l.isEmpty && l.all Char.isDigit then
    some (l.foldl (fun acc c => acc * 10 + (c.toNat - 48)) 0)
  else none

/-- Parse a date string in one of the modelled formats. -/
def parseYmd (v : String) : Option (Nat × Nat × Nat) :=
  let parts :=
    if v.data.any (· = '-') then splitChars (· = '-') v.data
    else splitChars (· = '/') v.data
  match parts with
  | [a, b, c] =>
    match charsToNat? a, charsToNat? b, charsToNat? c with
    | some x, some y, some z =>
      if a.length = 4 then
        if validYmd x y z then some (x, y, z) else none
      else if c.length = 4 then
        if validYmd z x y then some (z, x, y) else none
      else none
    | _, _, _ => none
  | _ => none

/-- A decimal digit as a character. -/
def digitChar : Nat → Char
  | 0 => '0' | 1 => '1' | 2 => '2' | 3 => '3' | 4 => '4'
  | 5 => '5' | 6 => '6' | 7 => '7' | 8 => '8' | _ => '9'

/-- `strftime("%Y%m%d")` for a year below 10000: four zero-padded year
digits, two month digits, two day digits. -/
def formatYmd8 (y m d : Nat) : String :=
  ⟨[digitChar (y / 1000 % 10), digitChar (y / 100 % 10), digitChar (y / 10 % 10),
    digitChar (y % 10), digitChar (m / 10 % 10), digitChar (m % 10),
    digitChar (d / 10 % 10), digitChar (d % 10)]⟩

/-- `_to_yyyymmdd` (`src/Test.py` lines 78–80) on one cell:
`pd.to_datetime(..., errors="coerce")` then `strftime("%Y%m%d")`; NaT
renders as missing. -/
def toYyyymmdd (c : NCell) : NCell :=
  match c with
  | none => none
  | some v => (parseYmd v).map (fun t => formatYmd8 t.1 t.2.1 t.2.2)

/-! ### Full-name splitting (`src/Test.py` lines 66–76) -/

/-- Drop empty pieces that are not at either end of the list: converts the
split-on-every-whitespace-char list into the `re`-style split on `\s+`
(runs of whitespace count as one separator, boundary empties kept). -/
def middleClean : List String → List String
  | [] => []
  | [x] => [x]
  | x :: rest => if x.isEmpty then middleClean rest else x :: middleClean rest

/-- `s.str.split(r"\s+")` on one value. -/
def pySplitWs (v : String) : List String :=
  match (splitChars isPyWs v.data).map (fun l => (⟨l⟩ : String)) with
  | [] => [v]
  | [x] => [x]
  | x :: rest => x :: middleClean rest

/-- Whether `v` contains a comma. -/
def hasComma (v : String) : Bool :=
  v.data.any (· = ',')

/-- The part of `v` before its first comma (`split(r",\s*", n=1)[0]`);
the whole string when no comma is present. -/
def commaHead (v : String) : String :=
  match splitOnce "," v with
  | some p => p.1
  | none => v

/-- The part of `v` after its first comma with following whitespace
stripped (`split(r",\s*", n=1)[1]`). -/
def commaRest (v : String) : String :=
  match splitOnce "," v with
  | some p => ⟨p.2.data.dropWhile isPyWs⟩
  | none => ""

/-- `_split_full_name(series)` (`src/Test.py` lines 66–76).  The series is
stringified (`astype(str)`, so NA becomes `"nan"`); `split(r",\s*", n=1,
expand=True)` yields two columns exactly when **some** value of the series
contains a comma, in which case every value is comma-split (`parts[1]` is
NA for comma-free values and `fillna("")` turns it into the empty string);
only otherwise is each value whitespace-tokenized with the final token as
the last name.  Returns `(first, last)`. -/
def splitFullNameN (vals : List NCell) : List NCell × List NCell :=
  let s := vals.map astypeStrN
  if s.any hasComma then
    (s.map (fun v => some (if hasComma v then commaRest v else "")),
     s.map (fun v => some (commaHead v)))
  else
    (s.map (fun v => some (String.intercalate " " (pySplitWs v).dropLast)),
     s.map (fun v => some ((pySplitWs v).getLastD "")))

/-! ### Schema normalizer (`src/Test.py` lines 86–138) -/

/-- Python truthiness of an optional column name: `None` and `""` are
falsy. -/
def pyTruthy (o : Option String) : Bool :=
  match o with
  | some s => !s.isEmpty
  | none => false

/-- Error outcomes of `build_artera_upload_from_df`: the
`"Input DataFrame is empty"` ValueError, the two KeyErrors raised
explicitly by the function, and the pandas KeyError from selecting a
missing column. -/
inductive NormErr where
  | emptyInput | missingRequired | missingName | colNotFound
deriving DecidableEq, Repr

/-- `work[c]`: the column's cells, or a pandas KeyError. -/
def getColE (df : DF NCell) (c : String) : Except NormErr (List NCell) :=
  if df.hasCol c then .ok (df.getColD none c) else .error .colNotFound

/-- The Artera output schema (`src/Test.py` lines 125–137), one list of
cells per output column, all in input row order. -/
structure CanonTable where
  personLastName : List NCell
  personMidName : List NCell
  personFirstName : List NCell
  personCellPhone : List NCell
  personHomePhone : List NCell
  personWorkPhone : List NCell
  personPrefLanguage : List NCell
  dob : List NCell
  gender : List NCell
  personID : List NCell
  PersonEmail : List NCell
deriving DecidableEq

/-- An optional output column: `work[c] if c and c in work.columns else
pd.NA` (the NA scalar broadcasts to a whole column of NA). -/
def optCol (df : DF NCell) (n : Nat) (oc : Option String) : List NCell :=
  if pyTruthy oc && df.hasCol (oc.getD "") then df.getColD none (oc.getD "")
  else List.replicate n none

/-- `Series.replace` with an exact-value substitution map. -/
def replaceVals (m : List (String × String)) (cell : NCell) : NCell :=
  match cell with
  | some v =>
    match m.lookup v with
    | some w => some w
    | none => some v
  | none => none

/-- The name-source resolution of `build_artera_upload_from_df` (lines
108–112): use the first/last columns when both are truthy, otherwise
split the full-name column, otherwise the `"Need either ..."` KeyError.
Returns `(first, last)` cell lists. -/
def nameSource (df : DF NCell) (firstC lastC fullC : Option String) :
    Except NormErr (List NCell × List NCell) :=
  if pyTruthy firstC && pyTruthy lastC then
    match getColE df (firstC.getD ""), getColE df (lastC.getD "") with
    | .ok fv, .ok lv => .ok (fv, lv)
    | .error e, _ => .error e
    | .ok _, .error e => .error e
  else if !(pyTruthy fullC) then .error .missingName
  else
    match getColE df (fullC.getD "") with
    | .ok full => .ok (splitFullNameN full)
    | .error e => .error e

/-- The language column after the optional recode (lines 122–123 and the
`personPrefLanguage` entry of line 132). -/
def langColVals (df : DF NCell) (n : Nat) (langC : Option String)
    (langRecode : List (String × String)) : List NCell :=
  if pyTruthy langC && df.hasCol (langC.getD "") then
    let raw := df.getColD none (langC.getD "")
    if langRecode.isEmpty then raw else raw.map (replaceVals langRecode)
  else List.replicate n none

/-- The body of `build_artera_upload_from_df` after the emptiness check,
with the column map already resolved (lines 99–138). -/
def buildArteraCore (df : DF NCell) (cmap : Field → Option String)
    (langRecode : List (String × String)) : Except NormErr CanonTable :=
  if !(pyTruthy (cmap .dob) && pyTruthy (cmap .mrn)) then .error .missingRequired
  else
    match nameSource df (cmap .first_name) (cmap .last_name) (cmap .full_name) with
    | .error e => .error e
    | .ok fl =>
      match getColE df ((cmap .dob).getD ""), getColE df ((cmap .mrn).getD "") with
      | .ok dobVals, .ok mrnVals =>
        .ok { personLastName := fl.2
              personMidName := optCol df df.rows.length (cmap .middle_name)
              personFirstName := fl.1
              personCellPhone := optCol df df.rows.length (cmap .phone)
              personHomePhone := optCol df df.rows.length (cmap .home_phone)
              personWorkPhone := optCol df df.rows.length (cmap .work_phone)
              personPrefLanguage := langColVals df df.rows.length (cmap .language) langRecode
              dob := dobVals.map toYyyymmdd
              gender := optCol df df.rows.length (cmap .gender)
              personID := mrnVals.map (fun c => some (astypeStrN c))
              PersonEmail := optCol df df.rows.length (cmap .email) }
      | .error e, _ => .error e
      | .ok _, .error e => .error e

/-- `build_artera_upload_from_df(df, column_map, language_recode=...)`
(`src/Test.py` lines 86–138).  `cmap?` is the optional explicit column
map (`None` triggers inference); `langRecode` models the
`language_recode` dict (empty list = `None`/empty, which is falsy). -/
def buildArteraUploadFromDf (df : DF NCell) (cmap? : Option (Field → Option String))
    (langRecode : List (String × String)) : Except NormErr CanonTable :=
  if df.rows.isEmpty || df.cols.isEmpty then .error .emptyInput
  else buildArteraCore df (cmap?.getD (inferColumnMap df)) langRecode

/-! ### Multi-sheet selector (`src/Test.py` lines 167–193) -/

/-- The per-sheet score of the selection loop: +3 for a truthy dob
mapping, +3 for mrn, +2 for first and last name together, else +1 for
full name. -/
def sheetScore (cmap : Field → Option String) : Nat :=
  (if pyTruthy (cmap .dob) then 3 else 0) +
  (if pyTruthy (cmap .mrn) then 3 else 0) +
  (if pyTruthy (cmap .first_name) && pyTruthy (cmap .last_name) then 2
   else if pyTruthy (cmap .full_name) then 1 else 0)

/-- The selection loop of `build_artera_upload_from_excel`: fold over the
sheets keeping the strictly best score (`score > best_score`), starting
from `best_score = -1`. -/
def selectBestSheetAux (best : Option (String × DF NCell × (Field → Option String)))
    (bestScore : Int) :
    List (String × DF NCell) → Option (String × DF NCell × (Field → Option String))
  | [] => best
  | (nm, df) :: rest =>
    let cmap := inferColumnMap df
    if (sheetScore cmap : Int) > bestScore then
      selectBestSheetAux (some (nm, df, cmap)) (sheetScore cmap) rest
    else selectBestSheetAux best bestScore rest

/-- `select_best_sheet`: the sheet-choosing part of
`build_artera_upload_from_excel` (`src/Test.py` lines 167–193); `none`
models the `"No suitable sheet found"` ValueError (empty collection). -/
def selectBestSheet (sheets : List (String × DF NCell)) :
    Option (String × DF NCell × (Field → Option String)) :=
  selectBestSheetAux none (-1) sheets

/-! ### Outreach filter cells (`src/Azara_Derived_Filtering.py`)

The filtering pipeline coerces two columns to datetime and compares them to
a cutoff.  Cells carry either a string, a datetime value (a day number:
`dtv d` is the day `d` of the proleptic Gregorian calendar counted from
1970-01-01, date-only as produced by `normalize()`), or NA. -/

inductive FCell where
  | s : String → FCell
  | dtv : Int → FCell
  | na : FCell
deriving DecidableEq, Repr

/-- Day number of a civil date (days since 1970-01-01; Howard Hinnant's
`days_from_civil`, the computation underlying pandas timestamps). -/
def daysFromCivil (y m d : Int) : Int :=
  let y' := y - (if m ≤ 2 then 1 else 0)
  let era := (if 0 ≤ y' then y' else y' - 399) / 400
  let yoe := y' - era * 400
  let mp := m + (if 2 < m then -3 else 9)
  let doy := (153 * mp + 2) / 5 + d - 1
  let doe := yoe * 365 + yoe / 4 - yoe / 100 + doy
  era * 146097 + doe - 719468

/-- Civil date of a day number (Hinnant's `civil_from_days`); used only to
render a datetime cell back to text. -/
def civilFromDays (z : Int) : Int × Int × Int :=
  let z' := z + 719468
  let era := (if 0 ≤ z' then z' else z' - 146096) / 146097
  let doe := z' - era * 146097
  let yoe := (doe - doe / 1460 + doe / 36524 - doe / 146096) / 365
  let y := yoe + era * 400
  let doy := doe - (365 * yoe + yoe / 4 - yoe / 100)
  let mp := (5 * doy + 2) / 153
  let d := doy - (153 * mp + 2) / 5 + 1
  let m := mp + (if mp < 10 then 3 else -9)
  (y + (if m ≤ 2 then 1 else 0), m, d)

/-- Zero-padded decimal rendering of a nonnegative number. -/
def padNum (n : Int) (w : Nat) : String :=
  let sgn := if n < 0 then "-" else ""
  let digits := toString n.natAbs
  sgn ++ ⟨List.replicate (w - digits.length) '0'⟩ ++ digits

/-- `str()` of a normalized pandas Timestamp: `YYYY-MM-DD 00:00:00`. -/
def renderTs (d : Int) : String :=
  let c := civilFromDays d
  padNum c.1 4 ++ "-" ++ padNum c.2.1 2 ++ "-" ++ padNum c.2.2 2 ++ " 00:00:00"

/-- `series.astype(str)` on one filter-pipeline cell. -/
def astypeStrF (c : FCell) : String :=
  match c with
  | .s v => v
  | .dtv d => renderTs d
  | .na => "nan"

/-- `pd.to_datetime(cell, errors="coerce")`: datetimes pass through, NA
stays NaT, strings parse via the modelled formats (day number result). -/
def pdToDatetime (c : FCell) : FCell :=
  match c with
  | .dtv d => .dtv d
  | .na => .na
  | .s v =>
    match parseYmd v with
    | some t => .dtv (daysFromCivil t.1 t.2.1 t.2.2)
    | none => .na

/-- `to_datetime_col(df, col)` (`src/Azara_Derived_Filtering.py` lines
141–145): coerce a column to datetime, an all-NaT column if absent. -/
def toDatetimeCol (df : DF FCell) (c : String) : List FCell :=
  if df.hasCol c then (df.getColD FCell.na c).map pdToDatetime
  else List.replicate df.rows.length .na

/-! ### Outreach filter pipeline (`src/Azara_Derived_Filtering.py` lines 168–237) -/

/-- `str.split(", ", n=1)[0]`: the part before the first comma-space, the
whole string when none occurs. -/
def csHead (v : String) : String :=
  match splitOnce ", " v with
  | some p => p.1
  | none => v

/-- `str.split(", ", n=1)[1]`: the part after the first comma-space. -/
def csRest (v : String) : String :=
  match splitOnce ", " v with
  | some p => p.2
  | none => ""

/-- Whether a value contains the separator `", "`. -/
def hasCS (v : String) : Bool :=
  (splitOnce ", " v).isSome

/-- The uppercased, stringified `Name` series of lines 183–184
(the local `df["Name"].astype(str).str.upper()`). -/
def nameUpper (df : DF FCell) : List String :=
  (df.getColD .na "Name").map (fun c => pyUpper (astypeStrF c))

/-- Lines 182–190: upper-case the `Name` column, then split it on `", "`
(at most one split).  `expand=True` yields two columns exactly when some
value contains the separator; in that case comma-free values get an NA
first name; otherwise the whole value becomes the last name and the first
name is NA for every row. -/
def nameStep (df : DF FCell) : DF FCell :=
  if df.hasCol "Name" then
    if (nameUpper df).any hasCS then
      ((df.setCol "Name" ((nameUpper df).map FCell.s)).setCol "Last Name"
        ((nameUpper df).map (fun v => FCell.s (csHead v)))).setCol "First Name"
        ((nameUpper df).map (fun v => if hasCS v then FCell.s (csRest v) else FCell.na))
    else
      ((df.setCol "Name" ((nameUpper df).map FCell.s)).setCol "Last Name"
        ((nameUpper df).map (fun v => FCell.s v))).setCol "First Name"
        (List.replicate df.rows.length FCell.na)
  else df

/-- Lines 193–194: rename `Date of Birth` to `DOB` when no `DOB` column
exists (pure rename, values untouched). -/
def renameDobStep (df : DF FCell) : DF FCell :=
  if df.hasCol "Date of Birth" && !df.hasCol "DOB" then
    ⟨df.cols.map (fun c => if c = "Date of Birth" then "DOB" else c), df.rows⟩
  else df

/-- Lines 197–198: keep only rows whose `Deceased` cell equals the string
`"N"` exactly (elementwise `==`; NA and datetimes compare unequal). -/
def deceasedStep (df : DF FCell) : DF FCell :=
  if df.hasCol "Deceased" then
    ⟨df.cols, maskRows df.rows ((df.getColD .na "Deceased").map (fun c => c == FCell.s "N"))⟩
  else df

/-- The alternatives of `APPT_TYPE_REGEX` (lines 16–19), literal spellings
preserved. -/
def apptTypeLabels : List String :=
  ["ECM", "Medication Purchase", "Walk", "Bloodwork", "Care Management", "Lab Only",
   "Vaccination", "Speciman", "Injection", "Chrio", "Acu", "Podiatry"]

/-- The alternatives of `APPT_LOC_REGEX` (line 20). -/
def apptLocLabels : List String := ["Dental", "Bridge"]

/-- `cond_date_na` (lines 201–204): `isna()` of `Next Appointment Date`,
all-true when the column is absent. -/
def condDateNa (df : DF FCell) : List Bool :=
  if df.hasCol "Next Appointment Date" then
    (df.getColD .na "Next Appointment Date").map (fun c => c == FCell.na)
  else List.replicate df.rows.length true

/-- `astype(str).str.contains(<alternation>, flags=IGNORECASE, na=False)`
over a column, all-false when the column is absent (lines 206–218). -/
def condContains (df : DF FCell) (col : String) (labels : List String) : List Bool :=
  if df.hasCol col then
    (df.getColD .na col).map (fun c => labels.any (fun lab => occursInCI lab (astypeStrF c)))
  else List.replicate df.rows.length false

/-- Line 220: keep rows where `cond_date_na | cond_loc | cond_type`. -/
def apptFilterStep (df : DF FCell) : DF FCell :=
  ⟨df.cols,
   maskRows df.rows
     (List.zipWith (fun a bc => a || bc)
       (condDateNa df)
       (List.zipWith (fun b c => b || c)
         (condContains df "Next Appointment Location" apptLocLabels)
         (condContains df "Next Appointment Type" apptTypeLabels)))⟩

/-- Lines 223–224: recode the exact value `Spanish; Castilian` to
`Spanish`. -/
def recodeLangF (c : FCell) : FCell :=
  if c == FCell.s "Spanish; Castilian" then FCell.s "Spanish" else c

def languageStep (df : DF FCell) : DF FCell :=
  if df.hasCol "Language" then
    df.setCol "Language" ((df.getColD .na "Language").map recodeLangF)
  else df

/-- Lines 227–228: `MRN` to string. -/
def mrnStep (df : DF FCell) : DF FCell :=
  if df.hasCol "MRN" then
    df.setCol "MRN" ((df.getColD .na "MRN").map (fun c => FCell.s (astypeStrF c)))
  else df

/-- The elementwise comparison `cell <= cutoff`: false on NaT (and on the
never-occurring string case, where pandas would error). -/
def encLe (x90 : Int) (c : FCell) : Bool :=
  match c with
  | .dtv d => d ≤ x90
  | _ => false

/-- Lines 231–232: keep rows whose `Most Recent Encounter Date` is `<=`
the cutoff. -/
def encFilterStep (x90 : Int) (df : DF FCell) : DF FCell :=
  if df.hasCol "Most Recent Encounter Date" then
    ⟨df.cols, maskRows df.rows ((df.getColD .na "Most Recent Encounter Date").map (encLe x90))⟩
  else df

/-- Line 235: `drop_duplicates()`. -/
def dedupStep (df : DF FCell) : DF FCell :=
  ⟨df.cols, dedupFirst df.rows⟩

/-- Line 178: coerce `Most Recent Encounter Date` to datetime (creating
the column when absent). -/
def encCoerce (df : DF FCell) : DF FCell :=
  df.setCol "Most Recent Encounter Date" (toDatetimeCol df "Most Recent Encounter Date")

/-- Line 179: coerce `Next Appointment Date` to datetime. -/
def apptCoerce (df : DF FCell) : DF FCell :=
  df.setCol "Next Appointment Date" (toDatetimeCol df "Next Appointment Date")

/-- `build_outreach_list(df)` (`src/Azara_Derived_Filtering.py` lines
168–237), as the composition of its steps in source order.  `today` is
the day number of `pd.Timestamp.today().normalize()`; the cutoff is
`today - 90` days. -/
def buildOutreachList (today : Int) (df0 : DF FCell) : DF FCell :=
  dedupStep (encFilterStep (today - 90) (mrnStep (languageStep (apptFilterStep
    (deceasedStep (renameDobStep (nameStep (apptCoerce (encCoerce df0)))))))))

/-! ## Basic lemmas about the table model -/

theorem maskRows_map {α : Type} (p : List α → Bool) (rows : List (List α)) :
    maskRows rows (rows.map p) = rows.filter p := by
  induction rows with
  | nil => rfl
  | cons r t ih =>
    simp only [maskRows, List.map_cons, List.zip_cons_cons, List.filterMap_cons] at *
    cases h : p r <;> simp [h, ih, List.filter_cons]

theorem maskRows_replicate_true {α : Type} (rows : List (List α)) :
    maskRows rows (List.replicate rows.length true) = rows := by
  rw [← List.map_const' rows true, maskRows_map, List.filter_eq_self]
  intro a _; rfl

theorem mem_of_mem_maskRows {α : Type} {rows : List (List α)} {mask : List Bool}
    {r : List α} (h : r ∈ maskRows rows mask) : r ∈ rows := by
  simp only [maskRows, List.mem_filterMap] at h
  obtain ⟨⟨r', b⟩, hmem, hif⟩ := h
  have hz := List.of_mem_zip hmem
  cases b with
  | false => simp at hif
  | true =>
    simp at hif
    exact hif ▸ hz.1

theorem getColD_eq_map {α : Type} (nv : α) (df : DF α) (c : String) {i : Nat}
    (h : df.colIdx c = some i) :
    df.getColD nv c = df.rows.map (fun r => r.getD i nv) := by
  unfold DF.getColD
  rw [h]

theorem length_getColD {α : Type} (nv : α) (df : DF α) (c : String)
    (h : df.hasCol c = true) : (df.getColD nv c).length = df.rows.length := by
  unfold DF.hasCol at h
  cases hidx : df.colIdx c with
  | none => rw [hidx] at h; simp at h
  | some i => rw [getColD_eq_map nv df c hidx, List.length_map]

/-! ## C10: empty input -/

/-- **C10**: For every empty or null input table (including a table with
column headers but zero rows), `build_artera_upload_from_df` raises the
`"Input DataFrame is empty"` error before any column-map inference or
required-field check, even though column inference on the same table
succeeds with an all-absent map; there is no empty canonical output for
an empty input. -/
theorem C10_empty_input (df : DF NCell) (cm : Option (Field → Option String))
    (lr : List (String × String)) (h : (df.rows.isEmpty || df.cols.isEmpty) = true) :
    buildArteraUploadFromDf df cm lr = .error .emptyInput ∧
    ∀ f, inferColumnMap df f = none := by
  constructor
  · unfold buildArteraUploadFromDf
    rw [if_pos h]
  · intro f
    unfold inferColumnMap bestMatchColumn
    rw [if_pos h]

/-- Witness for C10 at a concrete table with headers and zero rows. -/
theorem C10_empty_input_witness :
    buildArteraUploadFromDf ⟨["DOB", "MRN"], []⟩ none [] = .error .emptyInput ∧
    ∀ f, inferColumnMap (⟨["DOB", "MRN"], []⟩ : DF NCell) f = none :=
  C10_empty_input ⟨["DOB", "MRN"], []⟩ none [] (by decide)

/-! ## C7: dob output shape -/

theorem digitChar_isDigit (n : Nat) : (digitChar n).isDigit = true := by
  unfold digitChar
  split <;> rfl

theorem formatYmd8_length (y m d : Nat) : (formatYmd8 y m d).length = 8 := rfl

theorem formatYmd8_digits (y m d : Nat) :
    (formatYmd8 y m d).data.all Char.isDigit = true := by
  simp [formatYmd8, digitChar_isDigit]

theorem toYyyymmdd_some (v : String) :
    toYyyymmdd (some v) = (parseYmd v).map (fun t => formatYmd8 t.1 t.2.1 t.2.2) := rfl

theorem toYyyymmdd_shape (c : NCell) :
    toYyyymmdd c = none ∨
    ∃ s, toYyyymmdd c = some s ∧ s.length = 8 ∧ s.data.all Char.isDigit = true := by
  match c with
  | none => exact Or.inl rfl
  | some v =>
    rw [toYyyymmdd_some]
    cases hp : parseYmd v with
    | none => exact Or.inl rfl
    | some t =>
      exact Or.inr ⟨formatYmd8 t.1 t.2.1 t.2.2, rfl, formatYmd8_length _ _ _,
        formatYmd8_digits _ _ _⟩

/-- **C7**: For every row of the normalizer's output table, the dob field
is either an 8-character numeric string (YYYYMMDD) or missing — never a
4-digit year or a partial date; an unparseable value in the mapped dob
column yields a missing dob, not an error and not a default date. -/
theorem C7_dob_shape (df : DF NCell) (cm : Option (Field → Option String))
    (lr : List (String × String)) (out : CanonTable)
    (h : buildArteraUploadFromDf df cm lr = .ok out) :
    (∀ c ∈ out.dob,
      c = none ∨ ∃ s, c = some s ∧ s.length = 8 ∧ s.data.all Char.isDigit = true) ∧
    (∀ v, parseYmd v = none → toYyyymmdd (some v) = none) := by
  refine ⟨?_, ?_⟩
  · unfold buildArteraUploadFromDf buildArteraCore at h
    split at h
    · exact absurd h (by simp)
    · split at h
      · exact absurd h (by simp)
      · split at h
        · exact absurd h (by simp)
        · rename_i fl heq
          split at h
          · rename_i dobVals mrnVals hdob hmrn
            rw [Except.ok.injEq] at h
            subst h
            intro c hc
            simp only [List.mem_map] at hc
            obtain ⟨v, _, rfl⟩ := hc
            exact toYyyymmdd_shape v
          · exact absurd h (by simp)
          · exact absurd h (by simp)
  · intro v hv
    rw [toYyyymmdd_some, hv]
    rfl

/-- Witness for C7: a concrete table that normalizes successfully, with
the dob guarantees instantiated there. -/
theorem C7_dob_shape_witness :
    (∀ c ∈ (⟨[some "Smith"], [none], [some "Jane"], [none], [none], [none], [none],
        [some "19800506"], [none], [some "7"], [none]⟩ : CanonTable).dob,
      c = none ∨ ∃ s, c = some s ∧ s.length = 8 ∧ s.data.all Char.isDigit = true) ∧
    (∀ v, parseYmd v = none → toYyyymmdd (some v) = none) :=
  C7_dob_shape ⟨["Name", "DOB", "MRN"], [[some "Smith, Jane", some "1980-05-06", some "7"]]⟩
    none []
    ⟨[some "Smith"], [none], [some "Jane"], [none], [none], [none], [none],
      [some "19800506"], [none], [some "7"], [none]⟩
    (by rfl)

/-! ## C3: full-name splitting -/

/-- **C3 (counterexample)**: the claim says `_split_full_name` treats each
value independently, so `"John Smith"` (no comma) should be
whitespace-split into first `"John"` / last `"Smith"`; but because another
value of the same series contains a comma, the comma mode applies to the
whole series and yields first `""` / last `"John Smith"`.  A missing value
also becomes the string `"nan"`, not the empty string the claim requires. -/
theorem C3_split_counterexample :
    splitFullNameN [some "Smith, Jane", some "John Smith"] =
      ([some "Jane", some ""], [some "Smith", some "John Smith"]) ∧
    (splitFullNameN [some "Smith, Jane", some "John Smith"]).1.getD 1 none ≠ some "John" ∧
    (splitFullNameN [some "Smith, Jane", some "John Smith"]).2.getD 1 none ≠ some "Smith" ∧
    splitFullNameN [none] = ([some ""], [some "nan"]) ∧
    (splitFullNameN [none]).2.getD 0 none ≠ some "" := by
  refine ⟨by rfl, by decide, by decide, by rfl, by decide⟩

/-- **C3 (amended)**: `_split_full_name` chooses its mode per series, not
per value: after stringification (`astype(str)`, which turns missing
values into `"nan"`), if any value of the series contains a comma then
every value is comma-split — a comma-free value yields an empty first
name and the whole value as last name — and only when no value contains a
comma is each value whitespace-tokenized with the final token as the last
name and the preceding tokens joined by single spaces as the first name;
both outputs are always present strings, never absent. -/
theorem C3_split_amended (vals : List NCell) (i : Nat) (hi : i < vals.length) :
    ((vals.map astypeStrN).any hasComma = true →
      (splitFullNameN vals).1.getD i none =
        some (if hasComma (astypeStrN vals[i]) then commaRest (astypeStrN vals[i]) else "") ∧
      (splitFullNameN vals).2.getD i none = some (commaHead (astypeStrN vals[i]))) ∧
    ((vals.map astypeStrN).any hasComma = false →
      (splitFullNameN vals).1.getD i none =
        some (String.intercalate " " (pySplitWs (astypeStrN vals[i])).dropLast) ∧
      (splitFullNameN vals).2.getD i none =
        some ((pySplitWs (astypeStrN vals[i])).getLastD "")) := by
  constructor <;> intro hAny <;>
    simp [splitFullNameN, hAny, List.getD_eq_getElem?_getD, List.getElem?_map,
      List.getElem?_eq_getElem, hi]

/-- Witness for C3 (amended) at the mixed comma/no-comma series. -/
theorem C3_split_amended_witness :
    (splitFullNameN [some "Smith, Jane", some "John Smith"]).1.getD 1 none =
      some (if hasComma (astypeStrN (some "John Smith"))
        then commaRest (astypeStrN (some "John Smith")) else "") ∧
    (splitFullNameN [some "Smith, Jane", some "John Smith"]).2.getD 1 none =
      some (commaHead (astypeStrN (some "John Smith"))) :=
  (C3_split_amended [some "Smith, Jane", some "John Smith"] 1 (by decide)).1 (by decide)

/-! ## C2: required-field errors of the normalizer -/

theorem getColE_ok {df : DF NCell} {c : String} (h : df.hasCol c = true) :
    getColE df c = .ok (df.getColD none c) := by
  unfold getColE
  rw [if_pos h]

theorem pyTruthy_some {o : Option String} (h : pyTruthy o = true) : ∃ c, o = some c := by
  cases o with
  | none => exact absurd h (by simp [pyTruthy])
  | some c => exact ⟨c, rfl⟩

/-- **C2 (counterexample)**: a column map whose dob entry is the empty
string, naming a real (empty-labelled) column of a non-empty table, has
every required entry resolved in the claim's sense, yet
`build_artera_upload_from_df` raises the missing-required-field error,
because Python truthiness treats `""` like `None`. -/
theorem C2_required_counterexample :
    (∀ f : Field,
      ((fun f => match f with
        | .dob => some "" | .mrn => some "m" | .first_name => some "f"
        | .last_name => some "l" | _ => none) f : Option String).elim True
        (fun c => (⟨["", "d", "m", "f", "l"],
          [[some "1", some "2", some "3", some "4", some "5"]]⟩ : DF NCell).hasCol c = true)) ∧
    buildArteraUploadFromDf
      ⟨["", "d", "m", "f", "l"], [[some "1", some "2", some "3", some "4", some "5"]]⟩
      (some (fun f => match f with
        | .dob => some "" | .mrn => some "m" | .first_name => some "f"
        | .last_name => some "l" | _ => none)) []
      = .error .missingRequired := by
  refine ⟨?_, by rfl⟩
  intro f
  cases f <;> simp [DF.hasCol, DF.colIdx, Option.elim]

/-- **C2 (amended)**: For every non-empty table and every column map whose
entries name existing columns, the normalizer errors exactly when the map
leaves dob or mrn unresolved, or leaves both the first/last pair and
full_name unresolved — where an entry that is `None` **or the empty
string** counts as unresolved (Python falsiness); otherwise it returns
the canonical table: the missing-required error when dob or mrn is falsy,
the missing-name error when both name sources are falsy, and a successful
canonical table when dob, mrn and a name source are all truthy. -/
theorem C2_required_fields (df : DF NCell) (cmap : Field → Option String)
    (lr : List (String × String)) (hr : df.rows ≠ []) (hc : df.cols ≠ [])
    (hex : ∀ f, (cmap f).elim True (fun c => df.hasCol c = true)) :
    ((pyTruthy (cmap .dob) && pyTruthy (cmap .mrn)) = false →
      buildArteraUploadFromDf df (some cmap) lr = .error .missingRequired) ∧
    ((pyTruthy (cmap .dob) && pyTruthy (cmap .mrn)) = true →
      (pyTruthy (cmap .first_name) && pyTruthy (cmap .last_name)) = false →
      pyTruthy (cmap .full_name) = false →
      buildArteraUploadFromDf df (some cmap) lr = .error .missingName) ∧
    ((pyTruthy (cmap .dob) && pyTruthy (cmap .mrn)) = true →
      ((pyTruthy (cmap .first_name) && pyTruthy (cmap .last_name)) = true ∨
        pyTruthy (cmap .full_name) = true) →
      ∃ out, buildArteraUploadFromDf df (some cmap) lr = .ok out) := by
  have hguard : (df.rows.isEmpty || df.cols.isEmpty) = false := by
    simp only [Bool.or_eq_false_iff, List.isEmpty_eq_false]
    exact ⟨hr, hc⟩
  have hcolE : ∀ f, pyTruthy (cmap f) = true → getColE df ((cmap f).getD "") = .ok (df.getColD none ((cmap f).getD "")) := by
    intro f hf
    obtain ⟨c, hcf⟩ := pyTruthy_some hf
    have := hex f
    rw [hcf] at this ⊢
    exact getColE_ok this
  refine ⟨?_, ?_, ?_⟩
  · intro hreq
    simp only [buildArteraUploadFromDf, hguard, Bool.false_eq_true, if_false,
      Option.getD_some, buildArteraCore, hreq, Bool.not_false, if_true]
  · intro hreq hnames hfull
    simp only [buildArteraUploadFromDf, hguard, Bool.false_eq_true, if_false,
      Option.getD_some, buildArteraCore, hreq, Bool.not_true, if_false,
      nameSource, hnames, hfull, Bool.not_false, if_true]
  · intro hreq hname
    simp only [buildArteraUploadFromDf, hguard, Bool.false_eq_true, if_false,
      Option.getD_some, buildArteraCore, hreq, Bool.not_true, if_false]
    rw [Bool.and_eq_true] at hreq
    have hdob := hcolE .dob hreq.1
    have hmrn := hcolE .mrn hreq.2
    cases hnm : (pyTruthy (cmap .first_name) && pyTruthy (cmap .last_name)) with
    | true =>
      rw [Bool.and_eq_true] at hnm
      have hf := hcolE .first_name hnm.1
      have hl := hcolE .last_name hnm.2
      simp only [nameSource, hnm.1, hnm.2, Bool.and_self, if_true, hf, hl, hdob, hmrn]
      exact ⟨_, rfl⟩
    | false =>
      have hfull : pyTruthy (cmap .full_name) = true := by
        cases hname with
        | inl h => rw [h] at hnm; exact absurd hnm (by simp)
        | inr h => exact h
      have hfc := hcolE .full_name hfull
      simp only [nameSource, hnm, Bool.false_eq_true, if_false, hfull, Bool.not_true,
        hfc, hdob, hmrn]
      exact ⟨_, rfl⟩

/-- Witness for C2 (amended) at a concrete table and map for each branch. -/
theorem C2_required_fields_witness :
    buildArteraUploadFromDf ⟨["DOB", "MRN"], [[some "x", some "y"]]⟩
      (some (fun f => match f with
        | .dob => some "DOB" | .mrn => some "MRN" | _ => none)) []
      = .error .missingName :=
  (C2_required_fields ⟨["DOB", "MRN"], [[some "x", some "y"]]⟩
    (fun f => match f with | .dob => some "DOB" | .mrn => some "MRN" | _ => none) []
    (by decide) (by decide)
    (by intro f; cases f <;> simp [DF.hasCol, DF.colIdx, Option.elim])).2.1
    (by decide) (by decide) (by decide)

/-! ## C1: column inference -/

/-- The fold underlying `dictOfNorms`, with an explicit accumulator. -/
def dictFold (d : List (String × String)) (cols : List String) : List (String × String) :=
  cols.foldl (fun d c => dictInsert d (pyNorm c) c) d

theorem dictOfNorms_eq_fold (cols : List String) : dictOfNorms cols = dictFold [] cols := rfl

theorem mem_dictInsert {d : List (String × String)} {k v k' v' : String}
    (h : (k, v) ∈ dictInsert d k' v') : (k, v) ∈ d ∨ (k = k' ∧ v = v') := by
  induction d with
  | nil => simp [dictInsert] at h; exact Or.inr h
  | cons p t ih =>
    obtain ⟨pk, pv⟩ := p
    unfold dictInsert at h
    split at h
    · rename_i hk
      rcases List.mem_cons.mp h with h1 | h1
      · rw [Prod.mk.injEq] at h1
        exact Or.inr ⟨h1.1.trans hk, h1.2⟩
      · exact Or.inl (List.mem_cons_of_mem _ h1)
    · rcases List.mem_cons.mp h with h1 | h1
      · exact Or.inl (List.mem_cons.mpr (Or.inl h1))
      · rcases ih h1 with h2 | h2
        · exact Or.inl (List.mem_cons_of_mem _ h2)
        · exact Or.inr h2

theorem mem_dictFold {cols : List String} {d : List (String × String)} {k v : String}
    (h : (k, v) ∈ dictFold d cols) :
    (k, v) ∈ d ∨ (v ∈ cols ∧ pyNorm v = k) := by
  induction cols generalizing d with
  | nil => exact Or.inl h
  | cons c cs ih =>
    rcases ih h with h1 | h1
    · rcases mem_dictInsert h1 with h2 | h2
      · exact Or.inl h2
      · exact Or.inr ⟨h2.2 ▸ List.mem_cons_self c cs, by rw [h2.2, h2.1]⟩
    · exact Or.inr ⟨List.mem_cons_of_mem _ h1.1, h1.2⟩

theorem mem_dictOfNorms {cols : List String} {k v : String}
    (h : (k, v) ∈ dictOfNorms cols) : v ∈ cols ∧ pyNorm v = k := by
  rcases mem_dictFold (dictOfNorms_eq_fold cols ▸ h) with h1 | h1
  · simp at h1
  · exact h1

theorem key_mem_dictInsert (d : List (String × String)) (k v : String) :
    ∃ w, (k, w) ∈ dictInsert d k v := by
  induction d with
  | nil => exact ⟨v, by simp [dictInsert]⟩
  | cons p t ih =>
    obtain ⟨pk, pv⟩ := p
    unfold dictInsert
    split
    · rename_i hk
      exact ⟨v, by rw [← hk]; exact List.mem_cons_self _ _⟩
    · obtain ⟨w, hw⟩ := ih
      exact ⟨w, List.mem_cons_of_mem _ hw⟩

theorem key_mem_dictInsert_of_mem {d : List (String × String)} {k : String}
    (h : ∃ w, (k, w) ∈ d) (k' v' : String) : ∃ w, (k, w) ∈ dictInsert d k' v' := by
  induction d with
  | nil => simp at h
  | cons p t ih =>
    obtain ⟨pk, pv⟩ := p
    obtain ⟨w, hw⟩ := h
    unfold dictInsert
    split
    · rename_i hk
      rcases List.mem_cons.mp hw with h1 | h1
      · rw [Prod.mk.injEq] at h1
        exact ⟨v', by rw [← h1.1]; exact List.mem_cons_self _ _⟩
      · exact ⟨w, List.mem_cons_of_mem _ h1⟩
    · rcases List.mem_cons.mp hw with h1 | h1
      · exact ⟨w, List.mem_cons.mpr (Or.inl h1)⟩
      · obtain ⟨w2, hw2⟩ := ih ⟨w, h1⟩
        exact ⟨w2, List.mem_cons_of_mem _ hw2⟩

theorem key_mem_dictFold_of_mem {cols : List String} {d : List (String × String)}
    {k : String} (h : ∃ w, (k, w) ∈ d) : ∃ w, (k, w) ∈ dictFold d cols := by
  induction cols generalizing d with
  | nil => exact h
  | cons c cs ih => exact ih (key_mem_dictInsert_of_mem h (pyNorm c) c)

theorem key_mem_dictFold {cols : List String} {c : String} (h : c ∈ cols)
    (d : List (String × String)) : ∃ w, (pyNorm c, w) ∈ dictFold d cols := by
  induction cols generalizing d with
  | nil => simp at h
  | cons c' cs ih =>
    show ∃ w, (pyNorm c, w) ∈ dictFold (dictInsert d (pyNorm c') c') cs
    rcases List.mem_cons.mp h with h1 | h1
    · subst h1
      exact key_mem_dictFold_of_mem (key_mem_dictInsert d (pyNorm c) c)
    · exact ih h1 _

theorem key_mem_dictOfNorms {cols : List String} {c : String} (h : c ∈ cols) :
    ∃ w, (pyNorm c, w) ∈ dictOfNorms cols :=
  dictOfNorms_eq_fold cols ▸ key_mem_dictFold h []

theorem lookup_mem {l : List (String × String)} {k v : String}
    (h : l.lookup k = some v) : (k, v) ∈ l := by
  rw [List.lookup_eq_some_iff] at h
  obtain ⟨l₁, l₂, hl, _⟩ := h
  subst hl
  simp

/-- Exact-phase soundness of `_best_match_column`, for any table: when some
candidate alias normalizes to the same string as some column label, the
result is a column with that property (the exact phase fires and wins). -/
theorem bestMatchColumn_exact {α : Type} (df : DF α) (cands : List String)
    (hne : (df.rows.isEmpty || df.cols.isEmpty) = false)
    (hex : ∃ c ∈ df.cols, ∃ a ∈ cands, pyNorm a = pyNorm c) :
    ∃ c', bestMatchColumn df cands = some c' ∧ c' ∈ df.cols ∧
      ∃ a ∈ cands, pyNorm a = pyNorm c' := by
  unfold bestMatchColumn
  simp only [hne, Bool.false_eq_true, if_false]
  obtain ⟨c, hcmem, a, hamem, ha⟩ := hex
  obtain ⟨w, hw⟩ := key_mem_dictOfNorms hcmem
  have hlk : ((dictOfNorms df.cols).lookup (pyNorm a)).isSome := by
    rw [ha, List.lookup_isSome_iff]
    exact ⟨(pyNorm c, w), hw, by simp⟩
  have hfs : ((cands.map pyNorm).findSome?
      (fun cn => (dictOfNorms df.cols).lookup cn)).isSome := by
    rw [List.findSome?_isSome_iff]
    exact ⟨pyNorm a, List.mem_map_of_mem _ hamem, hlk⟩
  obtain ⟨orig, horig⟩ := Option.isSome_iff_exists.mp hfs
  obtain ⟨cn, hcnmem, hcn⟩ := List.exists_of_findSome?_eq_some horig
  have hsound := mem_dictOfNorms (lookup_mem hcn)
  obtain ⟨a', ha'mem, ha'⟩ := List.mem_map.mp hcnmem
  rw [horig]
  exact ⟨orig, rfl, hsound.1, a', ha'mem, by rw [ha', hsound.2]⟩

theorem findSome?_lookup_none {α : Type} (df : DF α) (cands : List String)
    (hnoex : ∀ a ∈ cands, ∀ c ∈ df.cols, pyNorm a ≠ pyNorm c) :
    (cands.map pyNorm).findSome? (fun cn => (dictOfNorms df.cols).lookup cn) = none := by
  rw [List.findSome?_eq_none_iff]
  intro cn hcn
  obtain ⟨a, hamem, rfl⟩ := List.mem_map.mp hcn
  rw [List.lookup_eq_none_iff]
  intro p hp
  obtain ⟨pk, pv⟩ := p
  have hs := mem_dictOfNorms hp
  simp only [bne_iff_ne, ne_eq]
  rw [← hs.2]
  exact hnoex a hamem pv hs.1

theorem dictInsert_of_fresh {d : List (String × String)} {k : String}
    (h : ∀ p ∈ d, p.1 ≠ k) (v : String) : dictInsert d k v = d ++ [(k, v)] := by
  induction d with
  | nil => rfl
  | cons p t ih =>
    obtain ⟨pk, pv⟩ := p
    unfold dictInsert
    split
    · rename_i hk
      exact absurd hk (h (pk, pv) (List.mem_cons_self _ _))
    · rw [List.cons_append]
      congr 1
      exact ih (fun q hq => h q (List.mem_cons_of_mem _ hq))

theorem dictFold_of_nodup (cols : List String) :
    ∀ d : List (String × String), (d.map Prod.fst ++ cols.map pyNorm).Nodup →
    dictFold d cols = d ++ cols.map (fun c => (pyNorm c, c)) := by
  induction cols with
  | nil => intro d _; simp [dictFold]
  | cons c cs ih =>
    intro d hnd
    have hfresh : ∀ p ∈ d, p.1 ≠ pyNorm c := by
      intro p hp
      rw [List.map_cons, List.nodup_append] at hnd
      intro hcontra
      exact hnd.2.2 (hcontra ▸ List.mem_map_of_mem _ hp) (List.mem_cons_self _ _)
    show dictFold (dictInsert d (pyNorm c) c) cs = _
    rw [dictInsert_of_fresh hfresh c, ih (d ++ [(pyNorm c, c)]) (by
      simpa [List.append_assoc] using hnd)]
    simp

theorem dictOfNorms_of_nodup {cols : List String} (h : (cols.map pyNorm).Nodup) :
    dictOfNorms cols = cols.map (fun c => (pyNorm c, c)) := by
  rw [dictOfNorms_eq_fold, dictFold_of_nodup cols [] (by simpa using h)]
  simp

theorem findSome?_if_eq_find? {α : Type} (p : α → Bool) (l : List α) :
    l.findSome? (fun x => if p x then some x else none) = l.find? p := by
  induction l with
  | nil => rfl
  | cons x t ih =>
    cases h : p x <;> simp [List.findSome?_cons, List.find?_cons, h, ih]

theorem containsScan_map_form (cols candN : List String) :
    containsScan (cols.map (fun c => (pyNorm c, c))) candN =
    cols.find? (fun col => candN.any (fun cand => !cand.isEmpty && occursIn cand (pyNorm col))) := by
  unfold containsScan
  rw [List.findSome?_map, ← findSome?_if_eq_find?]
  rfl

/-- Substring-phase characterization of `_best_match_column`, valid when
no two column labels normalize identically: absent an exact match, the
result is the first column (in table order) whose normalized label
contains a nonempty normalized candidate. -/
theorem bestMatchColumn_no_exact {α : Type} (df : DF α) (cands : List String)
    (hne : (df.rows.isEmpty || df.cols.isEmpty) = false)
    (hnodup : (df.cols.map pyNorm).Nodup)
    (hnoex : ∀ a ∈ cands, ∀ c ∈ df.cols, pyNorm a ≠ pyNorm c) :
    bestMatchColumn df cands =
      df.cols.find? (fun col => cands.any
        (fun a => !(pyNorm a).isEmpty && occursIn (pyNorm a) (pyNorm col))) := by
  unfold bestMatchColumn
  simp only [hne, Bool.false_eq_true, if_false]
  rw [findSome?_lookup_none df cands hnoex, dictOfNorms_of_nodup hnodup,
    containsScan_map_form]
  show df.cols.find? _ = df.cols.find? _
  congr 1
  funext col
  rw [List.any_map]
  rfl

/-- **C1 (counterexample)**: with two columns whose labels normalize to
the same string (`"My  DOB x"` and `"my dob x"` both normalize to
`"my dob x"`), the substring phase returns the **second** column, not the
first column in table order whose normalized label contains the alias
`"dob"` — the dict comprehension keeps the first key position but the
last column as value.  No alias matches exactly, so this is a
substring-only case. -/
theorem C1_infer_counterexample :
    inferColumnMap (⟨["My  DOB x", "my dob x"], [[some "a", some "b"]]⟩ : DF NCell) .dob
      = some "my dob x" ∧
    (["My  DOB x", "my dob x"] : List String).find? (fun col => (aliases .dob).any
        (fun a => !(pyNorm a).isEmpty && occursIn (pyNorm a) (pyNorm col)))
      = some "My  DOB x" ∧
    (some "my dob x" : Option String) ≠ some "My  DOB x" ∧
    (∀ a ∈ aliases Field.dob, ∀ c ∈ (["My  DOB x", "my dob x"] : List String),
      pyNorm a ≠ pyNorm c) := by
  refine ⟨by rfl, by rfl, by decide, by decide⟩

/-- **C1 (amended)**: `infer_column_map` resolves each field by a
two-phase match over normalized labels: an exact alias match always wins
over any substring-only match and yields a column some alias normalizes
to; **provided no two column labels normalize to the same string**, when
no alias matches exactly the field maps to the first column in table
order whose normalized label contains some (nonempty) alias, and to
absent when no column qualifies; an empty or null table maps every field
to absent without error. -/
theorem C1_infer_amended (df : DF NCell) (f : Field) :
    ((df.rows.isEmpty || df.cols.isEmpty) = true → inferColumnMap df f = none) ∧
    ((df.rows.isEmpty || df.cols.isEmpty) = false →
      ((∃ c ∈ df.cols, ∃ a ∈ aliases f, pyNorm a = pyNorm c) →
        ∃ c', inferColumnMap df f = some c' ∧ c' ∈ df.cols ∧
          ∃ a ∈ aliases f, pyNorm a = pyNorm c') ∧
      ((df.cols.map pyNorm).Nodup →
        (∀ a ∈ aliases f, ∀ c ∈ df.cols, pyNorm a ≠ pyNorm c) →
        inferColumnMap df f =
          df.cols.find? (fun col => (aliases f).any
            (fun a => !(pyNorm a).isEmpty && occursIn (pyNorm a) (pyNorm col))))) := by
  refine ⟨?_, fun hne => ⟨?_, ?_⟩⟩
  · intro h
    unfold inferColumnMap bestMatchColumn
    rw [if_pos h]
  · exact fun hex => bestMatchColumn_exact df (aliases f) hne hex
  · exact fun hnodup hnoex => bestMatchColumn_no_exact df (aliases f) hne hnodup hnoex

/-- Witness for C1 (amended): the exact-alias table of the spec's
precedence scenario (`"dob"` against `"date of birth stamp"`). -/
theorem C1_infer_amended_witness :
    ∃ c', inferColumnMap
        (⟨["dob", "date of birth stamp"], [[some "a", some "b"]]⟩ : DF NCell) .dob
      = some c' ∧ c' ∈ ["dob", "date of birth stamp"] ∧
      ∃ a ∈ aliases .dob, pyNorm a = pyNorm c' :=
  ((C1_infer_amended ⟨["dob", "date of birth stamp"], [[some "a", some "b"]]⟩ .dob).2
    (by rfl)).1 (by decide)

/-! ## C6: multi-sheet selection -/

/-- The tuple the selection loop stores for a winning sheet. -/
def sheetInfo (p : String × DF NCell) : String × DF NCell × (Field → Option String) :=
  (p.1, p.2, inferColumnMap p.2)

/-- The score the loop assigns to a sheet. -/
def scoreOf (p : String × DF NCell) : Nat :=
  sheetScore (inferColumnMap p.2)

theorem selectBestSheetAux_spec (l : List (String × DF NCell)) :
    ∀ (best : Option (String × DF NCell × (Field → Option String))) (bs : Int),
    ((∀ j (hj : j < l.length), (scoreOf (l.get ⟨j, hj⟩) : Int) ≤ bs) ∧
      selectBestSheetAux best bs l = best) ∨
    (∃ i, ∃ hi : i < l.length, bs < (scoreOf (l.get ⟨i, hi⟩) : Int) ∧
      selectBestSheetAux best bs l = some (sheetInfo (l.get ⟨i, hi⟩)) ∧
      (∀ j (hj : j < l.length),
        (scoreOf (l.get ⟨j, hj⟩) : Int) ≤ (scoreOf (l.get ⟨i, hi⟩) : Int)) ∧
      (∀ j (hj : j < l.length), j < i →
        (scoreOf (l.get ⟨j, hj⟩) : Int) < (scoreOf (l.get ⟨i, hi⟩) : Int))) := by
  induction l with
  | nil =>
    intro best bs
    left
    exact ⟨by intro j hj; simp at hj, rfl⟩
  | cons x t ih =>
    intro best bs
    obtain ⟨nm, dfx⟩ := x
    show _ ∨ _
    by_cases hx : bs < (sheetScore (inferColumnMap dfx) : Int)
    · have hstep : selectBestSheetAux best bs ((nm, dfx) :: t) =
          selectBestSheetAux (some (nm, dfx, inferColumnMap dfx))
            (sheetScore (inferColumnMap dfx)) t := by
        show (if (sheetScore (inferColumnMap dfx) : Int) > bs then _ else _) = _
        rw [if_pos hx]
      rcases ih (some (nm, dfx, inferColumnMap dfx)) (sheetScore (inferColumnMap dfx))
        with ⟨hall, heq⟩ | ⟨i, hi, hgt, heq, hmax, hpre⟩
      · right
        refine ⟨0, by simp, hx, ?_, ?_, ?_⟩
        · rw [hstep, heq]; rfl
        · intro j hj
          cases j with
          | zero => exact le_refl _
          | succ j =>
            exact hall j (by simp only [List.length_cons] at hj; omega)
        · intro j hj hlt
          omega
      · right
        refine ⟨i + 1, by simp only [List.length_cons]; omega, ?_, ?_, ?_, ?_⟩
        · calc bs < (sheetScore (inferColumnMap dfx) : Int) := hx
            _ ≤ _ := le_of_lt hgt
        · rw [hstep, heq]; rfl
        · intro j hj
          cases j with
          | zero => exact le_of_lt hgt
          | succ j =>
            exact hmax j (by simp only [List.length_cons] at hj; omega)
        · intro j hj hlt
          cases j with
          | zero => exact hgt
          | succ j =>
            exact hpre j (by simp only [List.length_cons] at hj; omega) (by omega)
    · have hstep : selectBestSheetAux best bs ((nm, dfx) :: t) =
          selectBestSheetAux best bs t := by
        show (if (sheetScore (inferColumnMap dfx) : Int) > bs then _ else _) = _
        rw [if_neg hx]
      push_neg at hx
      rcases ih best bs with ⟨hall, heq⟩ | ⟨i, hi, hgt, heq, hmax, hpre⟩
      · left
        refine ⟨?_, by rw [hstep, heq]⟩
        intro j hj
        cases j with
        | zero => exact hx
        | succ j =>
          exact hall j (by simp only [List.length_cons] at hj; omega)
      · right
        refine ⟨i + 1, by simp only [List.length_cons]; omega,
          hgt, by rw [hstep, heq]; rfl, ?_, ?_⟩
        · intro j hj
          cases j with
          | zero => exact le_trans hx (le_of_lt hgt)
          | succ j =>
            exact hmax j (by simp only [List.length_cons] at hj; omega)
        · intro j hj hlt
          cases j with
          | zero => exact lt_of_le_of_lt hx hgt
          | succ j =>
            exact hpre j (by simp only [List.length_cons] at hj; omega) (by omega)

/-- **C6**: For every nonempty ordered collection of sheets, the selection
loop of `build_artera_upload_from_excel` scores each sheet (+3 truthy
dob, +3 truthy mrn, +2 first and last name, else +1 full name) and keeps
the sheet with the strictly highest score; on ties the
earliest-encountered sheet in input order always wins: the chosen index
maximizes the score and every earlier sheet scores strictly lower. -/
theorem C6_select_best_sheet (sheets : List (String × DF NCell)) (h : sheets ≠ []) :
    ∃ i, ∃ hi : i < sheets.length,
      selectBestSheet sheets = some ((sheets.get ⟨i, hi⟩).1, (sheets.get ⟨i, hi⟩).2,
        inferColumnMap (sheets.get ⟨i, hi⟩).2) ∧
      (∀ j (hj : j < sheets.length),
        sheetScore (inferColumnMap (sheets.get ⟨j, hj⟩).2) ≤
          sheetScore (inferColumnMap (sheets.get ⟨i, hi⟩).2)) ∧
      (∀ j (hj : j < sheets.length), j < i →
        sheetScore (inferColumnMap (sheets.get ⟨j, hj⟩).2) <
          sheetScore (inferColumnMap (sheets.get ⟨i, hi⟩).2)) := by
  rcases selectBestSheetAux_spec sheets none (-1) with ⟨hall, _⟩ | ⟨i, hi, _, heq, hmax, hpre⟩
  · obtain ⟨x, t, rfl⟩ := List.exists_cons_of_ne_nil h
    have := hall 0 (by simp)
    omega
  · refine ⟨i, hi, heq, ?_, ?_⟩
    · intro j hj
      exact_mod_cast hmax j hj
    · intro j hj hlt
      exact_mod_cast hpre j hj hlt

/-- Witness for C6 at a two-sheet tie: the earliest sheet is kept. -/
theorem C6_select_best_sheet_witness :
    ∃ i, ∃ hi : i < ([("b", (⟨["DOB", "MRN"], [[some "x", some "y"]]⟩ : DF NCell)),
        ("b2", (⟨["DOB", "MRN"], [[some "x", some "y"]]⟩ : DF NCell))] :
        List (String × DF NCell)).length,
      selectBestSheet [("b", ⟨["DOB", "MRN"], [[some "x", some "y"]]⟩),
          ("b2", ⟨["DOB", "MRN"], [[some "x", some "y"]]⟩)] =
        some (([("b", (⟨["DOB", "MRN"], [[some "x", some "y"]]⟩ : DF NCell)),
            ("b2", ⟨["DOB", "MRN"], [[some "x", some "y"]]⟩)].get ⟨i, hi⟩).1,
          ([("b", (⟨["DOB", "MRN"], [[some "x", some "y"]]⟩ : DF NCell)),
            ("b2", ⟨["DOB", "MRN"], [[some "x", some "y"]]⟩)].get ⟨i, hi⟩).2,
          inferColumnMap ([("b", (⟨["DOB", "MRN"], [[some "x", some "y"]]⟩ : DF NCell)),
            ("b2", ⟨["DOB", "MRN"], [[some "x", some "y"]]⟩)].get ⟨i, hi⟩).2) ∧
      (∀ j (hj : j < ([("b", (⟨["DOB", "MRN"], [[some "x", some "y"]]⟩ : DF NCell)),
          ("b2", ⟨["DOB", "MRN"], [[some "x", some "y"]]⟩)] :
          List (String × DF NCell)).length),
        sheetScore (inferColumnMap (([("b", (⟨["DOB", "MRN"],
            [[some "x", some "y"]]⟩ : DF NCell)),
          ("b2", ⟨["DOB", "MRN"], [[some "x", some "y"]]⟩)].get ⟨j, hj⟩)).2) ≤
          sheetScore (inferColumnMap (([("b", (⟨["DOB", "MRN"],
              [[some "x", some "y"]]⟩ : DF NCell)),
            ("b2", ⟨["DOB", "MRN"], [[some "x", some "y"]]⟩)].get ⟨i, hi⟩)).2)) ∧
      (∀ j (hj : j < ([("b", (⟨["DOB", "MRN"], [[some "x", some "y"]]⟩ : DF NCell)),
          ("b2", ⟨["DOB", "MRN"], [[some "x", some "y"]]⟩)] :
          List (String × DF NCell)).length), j < i →
        sheetScore (inferColumnMap (([("b", (⟨["DOB", "MRN"],
            [[some "x", some "y"]]⟩ : DF NCell)),
          ("b2", ⟨["DOB", "MRN"], [[some "x", some "y"]]⟩)].get ⟨j, hj⟩)).2) <
          sheetScore (inferColumnMap (([("b", (⟨["DOB", "MRN"],
              [[some "x", some "y"]]⟩ : DF NCell)),
            ("b2", ⟨["DOB", "MRN"], [[some "x", some "y"]]⟩)].get ⟨i, hi⟩)).2)) :=
  C6_select_best_sheet
    [("b", ⟨["DOB", "MRN"], [[some "x", some "y"]]⟩),
     ("b2", ⟨["DOB", "MRN"], [[some "x", some "y"]]⟩)] (by decide)

/-! ## Column-calculus toolkit for the filter pipeline -/

theorem exists_of_mem_zipWith {α β γ : Type} {f : α → β → γ} {x : γ} :
    ∀ {as : List α} {bs : List β}, x ∈ List.zipWith f as bs →
      ∃ a ∈ as, ∃ b ∈ bs, x = f a b := by
  intro as
  induction as with
  | nil => intro bs h; simp at h
  | cons a as ih =>
    intro bs h
    cases bs with
    | nil => simp at h
    | cons b bs =>
      rw [List.zipWith_cons_cons] at h
      rcases List.mem_cons.mp h with h1 | h1
      · exact ⟨a, List.mem_cons_self _ _, b, List.mem_cons_self _ _, h1⟩
      · obtain ⟨a', ha, b', hb, hx⟩ := ih h1
        exact ⟨a', List.mem_cons_of_mem _ ha, b', List.mem_cons_of_mem _ hb, hx⟩

theorem zipWith_or_map {β : Type} (f g : β → Bool) (l : List β) :
    List.zipWith (fun a b => a || b) (l.map f) (l.map g) =
      l.map (fun x => f x || g x) := by
  induction l with
  | nil => rfl
  | cons x t ih => simp [ih]

theorem map_getD_zipWith_set {α : Type} (nv : α) (i : Nat) :
    ∀ (rows : List (List α)) (vals : List α), (∀ r ∈ rows, i < r.length) →
      vals.length = rows.length →
      (List.zipWith (fun r v => r.set i v) rows vals).map (fun r => r.getD i nv) = vals := by
  intro rows
  induction rows with
  | nil =>
    intro vals _ hlen
    rw [List.length_nil, List.length_eq_zero] at hlen
    subst hlen
    rfl
  | cons r t ih =>
    intro vals hlt hlen
    cases vals with
    | nil => simp at hlen
    | cons v vs =>
      rw [List.zipWith_cons_cons, List.map_cons]
      have h1 : i < r.length := hlt r (List.mem_cons_self _ _)
      rw [List.getD_eq_getElem?_getD, List.getElem?_set_self (by simpa using h1)]
      simp only [Option.getD_some, List.cons.injEq, true_and]
      exact ih vs (fun r' hr' => hlt r' (List.mem_cons_of_mem _ hr'))
        (by simpa using hlen)

theorem map_getD_zipWith_set_ne {α : Type} (nv : α) {i j : Nat} (hij : i ≠ j) :
    ∀ (rows : List (List α)) (vals : List α), vals.length = rows.length →
      (List.zipWith (fun r v => r.set i v) rows vals).map (fun r => r.getD j nv) =
        rows.map (fun r => r.getD j nv) := by
  intro rows
  induction rows with
  | nil => intro vals _; rfl
  | cons r t ih =>
    intro vals hlen
    cases vals with
    | nil => simp at hlen
    | cons v vs =>
      rw [List.zipWith_cons_cons, List.map_cons, List.map_cons]
      congr 1
      · simp [List.getD_eq_getElem?_getD, List.getElem?_set_ne hij]
      · exact ih vs (by simpa using hlen)

theorem map_getD_zipWith_append {α : Type} (nv : α) (L : Nat) :
    ∀ (rows : List (List α)) (vals : List α), (∀ r ∈ rows, r.length = L) →
      vals.length = rows.length →
      (List.zipWith (fun r v => r ++ [v]) rows vals).map (fun r => r.getD L nv) = vals := by
  intro rows
  induction rows with
  | nil =>
    intro vals _ hlen
    rw [List.length_nil, List.length_eq_zero] at hlen
    subst hlen
    rfl
  | cons r t ih =>
    intro vals hL hlen
    cases vals with
    | nil => simp at hlen
    | cons v vs =>
      rw [List.zipWith_cons_cons, List.map_cons]
      have h1 : r.length = L := hL r (List.mem_cons_self _ _)
      rw [List.getD_eq_getElem?_getD, List.getElem?_append_right (by omega),
        h1, Nat.sub_self]
      simp only [List.getElem?_cons_zero, Option.getD_some, List.cons.injEq, true_and]
      exact ih vs (fun r' hr' => hL r' (List.mem_cons_of_mem _ hr'))
        (by simpa using hlen)

theorem map_getD_zipWith_append_lt {α : Type} (nv : α) {j L : Nat} (hj : j < L) :
    ∀ (rows : List (List α)) (vals : List α), (∀ r ∈ rows, r.length = L) →
      vals.length = rows.length →
      (List.zipWith (fun r v => r ++ [v]) rows vals).map (fun r => r.getD j nv) =
        rows.map (fun r => r.getD j nv) := by
  intro rows
  induction rows with
  | nil => intro vals _ _; rfl
  | cons r t ih =>
    intro vals hL hlen
    cases vals with
    | nil => simp at hlen
    | cons v vs =>
      rw [List.zipWith_cons_cons, List.map_cons, List.map_cons]
      congr 1
      · have h1 : r.length = L := hL r (List.mem_cons_self _ _)
        simp [List.getD_eq_getElem?_getD, List.getElem?_append_left (by omega : j < r.length)]
      · exact ih vs (fun r' hr' => hL r' (List.mem_cons_of_mem _ hr'))
          (by simpa using hlen)

theorem colIdx_lt_length {α : Type} {df : DF α} {c : String} {i : Nat}
    (h : df.colIdx c = some i) : i < df.cols.length := by
  unfold DF.colIdx at h
  rw [List.findIdx?_eq_some_iff_getElem] at h
  obtain ⟨hlt, _, _⟩ := h
  exact hlt

theorem colIdx_getElem {α : Type} {df : DF α} {c : String} {i : Nat}
    (h : df.colIdx c = some i) :
    ∃ hlt : i < df.cols.length, df.cols[i] = c := by
  unfold DF.colIdx at h
  rw [List.findIdx?_eq_some_iff_getElem] at h
  obtain ⟨hlt, hp, _⟩ := h
  exact ⟨hlt, by simpa using hp⟩

theorem colIdx_inj {α : Type} {df : DF α} {c c' : String} {i i' : Nat}
    (hcc : c ≠ c') (h : df.colIdx c = some i) (h' : df.colIdx c' = some i') :
    i ≠ i' := by
  obtain ⟨hl, he⟩ := colIdx_getElem h
  obtain ⟨hl', he'⟩ := colIdx_getElem h'
  intro heq
  subst heq
  exact hcc (he.symm.trans he')

theorem hasCol_colIdx {α : Type} {df : DF α} {c : String} (h : df.hasCol c = true) :
    ∃ i, df.colIdx c = some i := by
  unfold DF.hasCol at h
  exact Option.isSome_iff_exists.mp h

theorem setCol_cols_of_some {α : Type} {df : DF α} {c : String} {i : Nat}
    (vals : List α) (h : df.colIdx c = some i) :
    (df.setCol c vals).cols = df.cols := by
  unfold DF.setCol
  rw [h]

theorem setCol_rows_of_some {α : Type} {df : DF α} {c : String} {i : Nat}
    (vals : List α) (h : df.colIdx c = some i) :
    (df.setCol c vals).rows = List.zipWith (fun r v => r.set i v) df.rows vals := by
  unfold DF.setCol
  rw [h]

theorem setCol_cols_of_none {α : Type} {df : DF α} {c : String}
    (vals : List α) (h : df.colIdx c = none) :
    (df.setCol c vals).cols = df.cols ++ [c] := by
  unfold DF.setCol
  rw [h]

theorem setCol_rows_of_none {α : Type} {df : DF α} {c : String}
    (vals : List α) (h : df.colIdx c = none) :
    (df.setCol c vals).rows = List.zipWith (fun r v => r ++ [v]) df.rows vals := by
  unfold DF.setCol
  rw [h]

theorem colIdx_setCol_of_some {α : Type} {df : DF α} {c : String} {i : Nat}
    (vals : List α) (h : df.colIdx c = some i) (c' : String) :
    (df.setCol c vals).colIdx c' = df.colIdx c' := by
  unfold DF.colIdx
  rw [setCol_cols_of_some vals h]

theorem colIdx_setCol_none_self {α : Type} {df : DF α} {c : String}
    (vals : List α) (h : df.colIdx c = none) :
    (df.setCol c vals).colIdx c = some df.cols.length := by
  unfold DF.colIdx
  rw [setCol_cols_of_none vals h, List.findIdx?_append]
  unfold DF.colIdx at h
  rw [h]
  simp

theorem colIdx_setCol_none_ne {α : Type} {df : DF α} {c c' : String}
    (vals : List α) (h : df.colIdx c = none) (hne : c' ≠ c) :
    (df.setCol c vals).colIdx c' = df.colIdx c' := by
  unfold DF.colIdx
  rw [setCol_cols_of_none vals h, List.findIdx?_append]
  have : ([c].findIdx? (fun x => x = c')) = none := by
    simp [List.findIdx?_cons, hne.symm]
  rw [this]
  simp

theorem hasCol_setCol_self {α : Type} (df : DF α) (c : String) (vals : List α) :
    (df.setCol c vals).hasCol c = true := by
  unfold DF.hasCol
  cases h : df.colIdx c with
  | some i => rw [colIdx_setCol_of_some vals h, h]; rfl
  | none => rw [colIdx_setCol_none_self vals h]; rfl

theorem hasCol_setCol_other {α : Type} {df : DF α} (c : String) (vals : List α)
    {c' : String} (hne : c' ≠ c) :
    (df.setCol c vals).hasCol c' = df.hasCol c' := by
  unfold DF.hasCol
  cases h : df.colIdx c with
  | some i => rw [colIdx_setCol_of_some vals h]
  | none => rw [colIdx_setCol_none_ne vals h hne]

theorem setCol_getColD_self {α : Type} (nv : α) {df : DF α} {c : String}
    {vals : List α} (hwf : df.WellFormed) (hlen : vals.length = df.rows.length) :
    (df.setCol c vals).getColD nv c = vals := by
  cases hidx : df.colIdx c with
  | some i =>
    have hi := colIdx_lt_length hidx
    have hidx2 : (df.setCol c vals).colIdx c = some i := by
      rw [colIdx_setCol_of_some vals hidx, hidx]
    rw [getColD_eq_map nv _ c hidx2, setCol_rows_of_some vals hidx]
    exact map_getD_zipWith_set nv i df.rows vals
      (fun r hr => by rw [hwf r hr]; exact hi) hlen
  | none =>
    have hidx2 : (df.setCol c vals).colIdx c = some df.cols.length :=
      colIdx_setCol_none_self vals hidx
    rw [getColD_eq_map nv _ c hidx2, setCol_rows_of_none vals hidx]
    exact map_getD_zipWith_append nv df.cols.length df.rows vals hwf hlen

theorem setCol_getColD_other {α : Type} (nv : α) {df : DF α} {c : String}
    {vals : List α} (hwf : df.WellFormed) (hlen : vals.length = df.rows.length)
    {c' : String} (hne : c' ≠ c) (hc' : df.hasCol c' = true) :
    (df.setCol c vals).getColD nv c' = df.getColD nv c' := by
  obtain ⟨j, hj⟩ := hasCol_colIdx hc'
  cases hidx : df.colIdx c with
  | some i =>
    have hidx2 : (df.setCol c vals).colIdx c' = some j := by
      rw [colIdx_setCol_of_some vals hidx, hj]
    rw [getColD_eq_map nv _ c' hidx2, setCol_rows_of_some vals hidx,
      getColD_eq_map nv df c' hj]
    exact map_getD_zipWith_set_ne nv (colIdx_inj (Ne.symm hne) hidx hj) df.rows vals hlen
  | none =>
    have hidx2 : (df.setCol c vals).colIdx c' = some j := by
      rw [colIdx_setCol_none_ne vals hidx hne, hj]
    rw [getColD_eq_map nv _ c' hidx2, setCol_rows_of_none vals hidx,
      getColD_eq_map nv df c' hj]
    exact map_getD_zipWith_append_lt nv (colIdx_lt_length hj) df.rows vals hwf hlen

theorem setCol_rows_length {α : Type} {df : DF α} {c : String} {vals : List α}
    (hlen : vals.length = df.rows.length) :
    (df.setCol c vals).rows.length = df.rows.length := by
  cases hidx : df.colIdx c with
  | some i => rw [setCol_rows_of_some vals hidx, List.length_zipWith, hlen]; omega
  | none => rw [setCol_rows_of_none vals hidx, List.length_zipWith, hlen]; omega

theorem setCol_wf {α : Type} {df : DF α} {c : String} {vals : List α}
    (hwf : df.WellFormed) (_hlen : vals.length = df.rows.length) :
    (df.setCol c vals).WellFormed := by
  intro r hr
  cases hidx : df.colIdx c with
  | some i =>
    rw [setCol_rows_of_some vals hidx] at hr
    rw [setCol_cols_of_some vals hidx]
    obtain ⟨r', hr', v, _, rfl⟩ := exists_of_mem_zipWith hr
    rw [List.length_set]
    exact hwf r' hr'
  | none =>
    rw [setCol_rows_of_none vals hidx] at hr
    rw [setCol_cols_of_none vals hidx]
    obtain ⟨r', hr', v, _, rfl⟩ := exists_of_mem_zipWith hr
    rw [List.length_append, List.length_append, hwf r' hr']
    rfl

/-! Lemmas for the row-filtering steps and rename. -/

theorem maskRows_sublist {α : Type} (rows : List (List α)) (mask : List Bool) :
    ∀ r ∈ maskRows rows mask, r ∈ rows :=
  fun _ h => mem_of_mem_maskRows h

theorem getColD_subset {α : Type} (nv : α) {cols : List String}
    {rows rows' : List (List α)} {c : String} (hsub : ∀ r ∈ rows', r ∈ rows)
    {P : α → Prop} (h : ∀ x ∈ (DF.mk cols rows).getColD nv c, P x) :
    ∀ x ∈ (DF.mk cols rows').getColD nv c, P x := by
  intro x hx
  unfold DF.getColD DF.colIdx at hx h
  cases hidx : List.findIdx? (fun x => x = c) cols with
  | none =>
    rw [hidx] at hx
    simp at hx
  | some i =>
    rw [hidx] at hx h
    simp only [List.mem_map] at hx
    obtain ⟨r', hr', rfl⟩ := hx
    exact h _ (List.mem_map_of_mem _ (hsub r' hr'))

theorem mem_dedupFirstAux {α : Type} [DecidableEq α] :
    ∀ {rows : List (List α)} {seen : List (List α)} {r : List α},
      r ∈ dedupFirstAux seen rows → r ∈ rows := by
  intro rows
  induction rows with
  | nil => intro seen r h; exact absurd h (by simp [dedupFirstAux])
  | cons x t ih =>
    intro seen r h
    unfold dedupFirstAux at h
    split at h
    · exact List.mem_cons_of_mem _ (ih h)
    · rcases List.mem_cons.mp h with h1 | h1
      · exact h1 ▸ List.mem_cons_self _ _
      · exact List.mem_cons_of_mem _ (ih h1)

theorem dedupFirstAux_spec {α : Type} [DecidableEq α] :
    ∀ (rows seen : List (List α)),
      (∀ x ∈ dedupFirstAux seen rows, x ∉ seen) ∧ (dedupFirstAux seen rows).Nodup := by
  intro rows
  induction rows with
  | nil => intro seen; exact ⟨by simp [dedupFirstAux], by simp [dedupFirstAux]⟩
  | cons x t ih =>
    intro seen
    unfold dedupFirstAux
    split
    · exact ih seen
    · rename_i hx
      obtain ⟨hnotin, hnd⟩ := ih (x :: seen)
      constructor
      · intro y hy
        rcases List.mem_cons.mp hy with h1 | h1
        · exact h1 ▸ hx
        · exact fun hcon => hnotin y h1 (List.mem_cons_of_mem _ hcon)
      · rw [List.nodup_cons]
        exact ⟨fun hcon => hnotin x hcon (List.mem_cons_self _ _), hnd⟩

theorem dedupFirst_nodup {α : Type} [DecidableEq α] (rows : List (List α)) :
    (dedupFirst rows).Nodup :=
  (dedupFirstAux_spec rows []).2

theorem mem_dedupFirst {α : Type} [DecidableEq α] {rows : List (List α)} {r : List α}
    (h : r ∈ dedupFirst rows) : r ∈ rows :=
  mem_dedupFirstAux h

theorem dedupFirstAux_of_nodup {α : Type} [DecidableEq α] :
    ∀ (rows seen : List (List α)), rows.Nodup → (∀ r ∈ rows, r ∉ seen) →
      dedupFirstAux seen rows = rows := by
  intro rows
  induction rows with
  | nil => intro seen _ _; rfl
  | cons x t ih =>
    intro seen hnd hdisj
    unfold dedupFirstAux
    rw [if_neg (hdisj x (List.mem_cons_self _ _))]
    congr 1
    rw [List.nodup_cons] at hnd
    refine ih (x :: seen) hnd.2 ?_
    intro r hr hcon
    rcases List.mem_cons.mp hcon with h1 | h1
    · exact hnd.1 (h1 ▸ hr)
    · exact hdisj r (List.mem_cons_of_mem _ hr) h1

theorem dedupFirst_of_nodup {α : Type} [DecidableEq α] {rows : List (List α)}
    (h : rows.Nodup) : dedupFirst rows = rows :=
  dedupFirstAux_of_nodup rows [] h (by simp)

/-! Rename-step lemmas: every label other than `Date of Birth` and `DOB`
is untouched by the rename. -/

theorem renameDob_rows (df : DF FCell) : (renameDobStep df).rows = df.rows := by
  unfold renameDobStep
  split <;> rfl

theorem renameDob_colIdx (df : DF FCell) {c : String}
    (h1 : c ≠ "Date of Birth") (h2 : c ≠ "DOB") :
    (renameDobStep df).colIdx c = df.colIdx c := by
  unfold renameDobStep
  split
  · show (DF.mk _ _).colIdx c = _
    unfold DF.colIdx
    rw [List.findIdx?_map]
    congr 1
    funext x
    by_cases hx : x = "Date of Birth"
    · subst hx
      simp [Function.comp, h1.symm, h2.symm]
    · simp [Function.comp, hx]
  · rfl

theorem renameDob_hasCol (df : DF FCell) {c : String}
    (h1 : c ≠ "Date of Birth") (h2 : c ≠ "DOB") :
    (renameDobStep df).hasCol c = df.hasCol c := by
  unfold DF.hasCol
  rw [renameDob_colIdx df h1 h2]

theorem renameDob_getColD (nv : FCell) (df : DF FCell) {c : String}
    (h1 : c ≠ "Date of Birth") (h2 : c ≠ "DOB") :
    (renameDobStep df).getColD nv c = df.getColD nv c := by
  unfold DF.getColD
  rw [renameDob_colIdx df h1 h2, renameDob_rows]

theorem renameDob_cols_length (df : DF FCell) :
    (renameDobStep df).cols.length = df.cols.length := by
  unfold renameDobStep
  split
  · exact List.length_map _ _
  · rfl

theorem renameDob_wf {df : DF FCell} (hwf : df.WellFormed) :
    (renameDobStep df).WellFormed := by
  intro r hr
  rw [renameDob_rows] at hr
  rw [renameDob_cols_length]
  exact hwf r hr

/-! Per-row predicates of the appointment and encounter filters. -/

/-- The cell of row `r` in column `c` of `df` (`nv` when the column is
absent or the row too short). -/
def cellAt {α : Type} (nv : α) (df : DF α) (c : String) (r : List α) : α :=
  match df.colIdx c with
  | some i => r.getD i nv
  | none => nv

theorem getColD_eq_map_cellAt {α : Type} (nv : α) (df : DF α) (c : String)
    (h : df.hasCol c = true) :
    df.getColD nv c = df.rows.map (cellAt nv df c) := by
  obtain ⟨i, hi⟩ := hasCol_colIdx h
  rw [getColD_eq_map nv df c hi]
  congr 1
  funext r
  unfold cellAt
  rw [hi]

/-- `cond_date_na` as a per-row predicate: `Next Appointment Date` is
missing, or the column is entirely absent (all rows pass). -/
def dateNaPred (df : DF FCell) (r : List FCell) : Bool :=
  if df.hasCol "Next Appointment Date" then
    cellAt FCell.na df "Next Appointment Date" r == FCell.na
  else true

/-- A contains-predicate over a column as a per-row predicate: the
stringified cell contains one of the labels case-insensitively; an absent
column fails for all rows. -/
def containsPred (df : DF FCell) (c : String) (labels : List String)
    (r : List FCell) : Bool :=
  if df.hasCol c then
    labels.any (fun lab => occursInCI lab (astypeStrF (cellAt FCell.na df c r)))
  else false

/-- The appointment-filter row predicate: the boolean OR of the three
conditions of line 220. -/
def apptRowPred (df : DF FCell) (r : List FCell) : Bool :=
  dateNaPred df r ||
    (containsPred df "Next Appointment Location" apptLocLabels r ||
      containsPred df "Next Appointment Type" apptTypeLabels r)

theorem condDateNa_eq (df : DF FCell) :
    condDateNa df = df.rows.map (dateNaPred df) := by
  unfold condDateNa
  cases h : df.hasCol "Next Appointment Date" with
  | true =>
    rw [if_pos rfl, getColD_eq_map_cellAt _ _ _ h, List.map_map]
    congr 1
    funext r
    simp [Function.comp, dateNaPred, h]
  | false =>
    rw [if_neg (by simp), ← List.map_const' df.rows true]
    congr 1
    funext r
    simp [dateNaPred, h]

theorem condContains_eq (df : DF FCell) (c : String) (labels : List String) :
    condContains df c labels = df.rows.map (containsPred df c labels) := by
  unfold condContains
  cases h : df.hasCol c with
  | true =>
    rw [if_pos rfl, getColD_eq_map_cellAt _ _ _ h, List.map_map]
    congr 1
    funext r
    simp [Function.comp, containsPred, h]
  | false =>
    rw [if_neg (by simp), ← List.map_const' df.rows false]
    congr 1
    funext r
    simp [containsPred, h]

theorem apptFilterStep_eq (df : DF FCell) :
    apptFilterStep df = ⟨df.cols, df.rows.filter (apptRowPred df)⟩ := by
  unfold apptFilterStep
  congr 1
  rw [condDateNa_eq, condContains_eq, condContains_eq, zipWith_or_map,
    zipWith_or_map, maskRows_map]
  rfl

/-- The encounter-filter row predicate of lines 231–232. -/
def encRowPred (x90 : Int) (df : DF FCell) (r : List FCell) : Bool :=
  encLe x90 (cellAt FCell.na df "Most Recent Encounter Date" r)

theorem encFilterStep_eq (x90 : Int) (df : DF FCell)
    (h : df.hasCol "Most Recent Encounter Date" = true) :
    encFilterStep x90 df = ⟨df.cols, df.rows.filter (encRowPred x90 df)⟩ := by
  unfold encFilterStep
  rw [if_pos h]
  congr 1
  rw [getColD_eq_map_cellAt _ _ _ h, List.map_map, maskRows_map]
  rfl

/-! ## C5: the appointment filter -/

/-- **C5**: In `build_outreach_list`, a row survives the appointment
filter step if and only if the boolean OR of three predicates holds: its
`Next Appointment Date` is missing (an absent column counts as true for
all rows), or its `Next Appointment Location` contains `Dental` or
`Bridge` case-insensitively (absent column false), or its
`Next Appointment Type` contains one of the fixed labels — with the
literal misspellings `Speciman` and `Chrio` preserved (absent column
false).  The step keeps exactly the rows satisfying the OR, in order. -/
theorem C5_appt_filter (df : DF FCell) :
    apptTypeLabels = ["ECM", "Medication Purchase", "Walk", "Bloodwork", "Care Management",
      "Lab Only", "Vaccination", "Speciman", "Injection", "Chrio", "Acu", "Podiatry"] ∧
    apptLocLabels = ["Dental", "Bridge"] ∧
    (apptFilterStep df).cols = df.cols ∧
    (apptFilterStep df).rows = df.rows.filter (apptRowPred df) := by
  refine ⟨rfl, rfl, ?_, ?_⟩ <;> rw [apptFilterStep_eq]

/-! ## C4: the encounter-date step -/

/-- The invariant carried through the pipeline when the input lacks an
encounter-date column: the (created) column exists and is entirely NA. -/
def EncAllNa (t : DF FCell) : Prop :=
  t.WellFormed ∧ t.hasCol "Most Recent Encounter Date" = true ∧
  ∀ x ∈ t.getColD FCell.na "Most Recent Encounter Date", x = FCell.na

theorem toDatetimeCol_length (df : DF FCell) (c : String) :
    (toDatetimeCol df c).length = df.rows.length := by
  unfold toDatetimeCol
  split
  · rw [List.length_map]
    exact length_getColD _ df c (by assumption)
  · exact List.length_replicate _ _

theorem encAllNa_setCol {t : DF FCell} {c : String} {vals : List FCell}
    (hP : EncAllNa t) (hne : "Most Recent Encounter Date" ≠ c)
    (hlen : vals.length = t.rows.length) : EncAllNa (t.setCol c vals) := by
  obtain ⟨hwf, hhas, hna⟩ := hP
  refine ⟨setCol_wf hwf hlen, ?_, ?_⟩
  · rw [hasCol_setCol_other c vals hne]
    exact hhas
  · rw [setCol_getColD_other FCell.na hwf hlen hne hhas]
    exact hna

theorem encAllNa_rowsub {t : DF FCell} {rows' : List (List FCell)}
    (hP : EncAllNa t) (hsub : ∀ r ∈ rows', r ∈ t.rows) :
    EncAllNa ⟨t.cols, rows'⟩ := by
  obtain ⟨hwf, hhas, hna⟩ := hP
  refine ⟨fun r hr => hwf r (hsub r hr), hhas, ?_⟩
  exact getColD_subset FCell.na hsub hna

theorem nameUpper_length (df : DF FCell) (h : df.hasCol "Name" = true) :
    (nameUpper df).length = df.rows.length := by
  unfold nameUpper
  rw [List.length_map]
  exact length_getColD _ df _ h

theorem encAllNa_nameStep {t : DF FCell} (hP : EncAllNa t) :
    EncAllNa (nameStep t) := by
  unfold nameStep
  split
  · rename_i hname
    have hlen0 := nameUpper_length t hname
    have h1 : EncAllNa (t.setCol "Name" ((nameUpper t).map FCell.s)) :=
      encAllNa_setCol hP (by decide) (by rw [List.length_map, hlen0])
    have hr1 : (t.setCol "Name" ((nameUpper t).map FCell.s)).rows.length = t.rows.length :=
      setCol_rows_length (by rw [List.length_map, hlen0])
    split
    · have h2 : EncAllNa ((t.setCol "Name" ((nameUpper t).map FCell.s)).setCol "Last Name"
          ((nameUpper t).map (fun v => FCell.s (csHead v)))) :=
        encAllNa_setCol h1 (by decide) (by rw [List.length_map, hlen0, hr1])
      have hr2 : ((t.setCol "Name" ((nameUpper t).map FCell.s)).setCol "Last Name"
          ((nameUpper t).map (fun v => FCell.s (csHead v)))).rows.length = t.rows.length := by
        rw [setCol_rows_length (by rw [List.length_map, hlen0, hr1]), hr1]
      exact encAllNa_setCol h2 (by decide) (by rw [List.length_map, hlen0, hr2])
    · have h2 : EncAllNa ((t.setCol "Name" ((nameUpper t).map FCell.s)).setCol "Last Name"
          ((nameUpper t).map (fun v => FCell.s v))) :=
        encAllNa_setCol h1 (by decide) (by rw [List.length_map, hlen0, hr1])
      have hr2 : ((t.setCol "Name" ((nameUpper t).map FCell.s)).setCol "Last Name"
          ((nameUpper t).map (fun v => FCell.s v))).rows.length = t.rows.length := by
        rw [setCol_rows_length (by rw [List.length_map, hlen0, hr1]), hr1]
      exact encAllNa_setCol h2 (by decide) (by rw [List.length_replicate, hr2])
  · exact hP

theorem encAllNa_rename {t : DF FCell} (hP : EncAllNa t) :
    EncAllNa (renameDobStep t) := by
  obtain ⟨hwf, hhas, hna⟩ := hP
  have h1 : "Most Recent Encounter Date" ≠ "Date of Birth" := by decide
  have h2 : "Most Recent Encounter Date" ≠ "DOB" := by decide
  exact ⟨renameDob_wf hwf, by rw [renameDob_hasCol t h1 h2]; exact hhas,
    by rw [renameDob_getColD FCell.na t h1 h2]; exact hna⟩

theorem encAllNa_deceased {t : DF FCell} (hP : EncAllNa t) :
    EncAllNa (deceasedStep t) := by
  unfold deceasedStep
  split
  · exact encAllNa_rowsub hP (maskRows_sublist _ _)
  · exact hP

theorem encAllNa_appt {t : DF FCell} (hP : EncAllNa t) :
    EncAllNa (apptFilterStep t) := by
  rw [apptFilterStep_eq]
  exact encAllNa_rowsub hP (fun r hr => List.mem_of_mem_filter hr)

theorem encAllNa_language {t : DF FCell} (hP : EncAllNa t) :
    EncAllNa (languageStep t) := by
  unfold languageStep
  split
  · refine encAllNa_setCol hP (by decide) ?_
    rw [List.length_map]
    exact length_getColD _ t _ (by assumption)
  · exact hP

theorem encAllNa_mrn {t : DF FCell} (hP : EncAllNa t) :
    EncAllNa (mrnStep t) := by
  unfold mrnStep
  split
  · refine encAllNa_setCol hP (by decide) ?_
    rw [List.length_map]
    exact length_getColD _ t _ (by assumption)
  · exact hP

theorem encFilterStep_of_allNa {x90 : Int} {t : DF FCell} (hP : EncAllNa t) :
    (encFilterStep x90 t).rows = [] := by
  obtain ⟨hwf, hhas, hna⟩ := hP
  rw [encFilterStep_eq x90 t hhas]
  show t.rows.filter _ = []
  rw [List.filter_eq_nil_iff]
  intro r hr
  have hcell : cellAt FCell.na t "Most Recent Encounter Date" r = FCell.na := by
    apply hna
    rw [getColD_eq_map_cellAt _ _ _ hhas]
    exact List.mem_map_of_mem _ hr
  unfold encRowPred
  rw [hcell]
  simp [encLe]

/-- When the input table has no encounter-date column, the whole pipeline
returns zero rows: line 178 creates the column filled with NaT and the
final date filter (line 232) drops every row. -/
theorem buildOutreachList_no_enc (today : Int) (df : DF FCell)
    (hwf : df.WellFormed) (h : df.hasCol "Most Recent Encounter Date" = false) :
    (buildOutreachList today df).rows = [] := by
  have hvals : toDatetimeCol df "Most Recent Encounter Date" =
      List.replicate df.rows.length FCell.na := by
    unfold toDatetimeCol
    rw [if_neg (by simp [h])]
  have hP1 : EncAllNa (encCoerce df) := by
    unfold encCoerce
    refine ⟨setCol_wf hwf (by rw [toDatetimeCol_length]), hasCol_setCol_self df _ _, ?_⟩
    rw [setCol_getColD_self FCell.na hwf (by rw [toDatetimeCol_length]), hvals]
    intro x hx
    exact List.eq_of_mem_replicate hx
  have hP2 : EncAllNa (apptCoerce (encCoerce df)) := by
    unfold apptCoerce
    exact encAllNa_setCol hP1 (by decide) (by rw [toDatetimeCol_length])
  have hP8 := encAllNa_mrn (encAllNa_language (encAllNa_appt (encAllNa_deceased
    (encAllNa_rename (encAllNa_nameStep hP2)))))
  unfold buildOutreachList
  show dedupFirst (encFilterStep (today - 90) _).rows = []
  rw [encFilterStep_of_allNa hP8]
  rfl

/-- **C4 (counterexample)**: on a table with no
`Most Recent Encounter Date` column (and nothing else that filters), the
claim says the encounter-date step is a no-op, so the single row should
survive; the pipeline instead returns zero rows, because line 178 creates
the column filled with NaT and line 232 then drops every row. -/
theorem C4_enc_counterexample :
    (buildOutreachList 20300 ⟨["X"], [[FCell.s "hi"]]⟩).rows = [] ∧
    (⟨["X"], [[FCell.s "hi"]]⟩ : DF FCell).rows ≠ [] ∧
    (⟨["X"], [[FCell.s "hi"]]⟩ : DF FCell).hasCol "Most Recent Encounter Date" = false := by
  refine ⟨by decide, by decide, by decide⟩

/-- **C4 (amended)**: when the input table has no
`Most Recent Encounter Date` column, the coercion step creates it with
every value missing and the encounter-date filter then drops **every**
row (the step is not a no-op); when the column is present, the step keeps
exactly the rows whose (already coerced) encounter cell is a date `d`
with `d ≤ today - 90`, and rows with a missing or non-date cell are
dropped by that comparison. -/
theorem C4_enc_filter_amended (today x90 : Int) (df dfe : DF FCell)
    (hwf : df.WellFormed) (habs : df.hasCol "Most Recent Encounter Date" = false)
    (hpres : dfe.hasCol "Most Recent Encounter Date" = true) :
    (buildOutreachList today df).rows = [] ∧
    (encFilterStep x90 dfe).cols = dfe.cols ∧
    (encFilterStep x90 dfe).rows = dfe.rows.filter (encRowPred x90 dfe) ∧
    (∀ d, encLe x90 (FCell.dtv d) = decide (d ≤ x90)) ∧
    encLe x90 FCell.na = false := by
  refine ⟨buildOutreachList_no_enc today df hwf habs, ?_, ?_, fun d => rfl, rfl⟩
  · rw [encFilterStep_eq x90 dfe hpres]
  · rw [encFilterStep_eq x90 dfe hpres]

/-- Witness for C4 (amended) at concrete tables. -/
theorem C4_enc_filter_amended_witness :
    (buildOutreachList 20300 ⟨["X"], [[FCell.s "hi"]]⟩).rows = [] ∧
    (encFilterStep 20210 ⟨["Most Recent Encounter Date"], [[FCell.dtv 0]]⟩).cols =
      (⟨["Most Recent Encounter Date"], [[FCell.dtv 0]]⟩ : DF FCell).cols ∧
    (encFilterStep 20210 ⟨["Most Recent Encounter Date"], [[FCell.dtv 0]]⟩).rows =
      (⟨["Most Recent Encounter Date"], [[FCell.dtv 0]]⟩ : DF FCell).rows.filter
        (encRowPred 20210 ⟨["Most Recent Encounter Date"], [[FCell.dtv 0]]⟩) ∧
    (∀ d, encLe 20210 (FCell.dtv d) = decide (d ≤ 20210)) ∧
    encLe 20210 FCell.na = false :=
  C4_enc_filter_amended 20300 20210 ⟨["X"], [[FCell.s "hi"]]⟩
    ⟨["Most Recent Encounter Date"], [[FCell.dtv 0]]⟩
    (by decide) (by decide) (by decide)

/-! ## C8: the concrete outreach scenario -/

/-- **C8 (counterexample)**: the scenario row survives the pipeline, but
its derived First Name is `"JANE"`, not `"Jane"` — the code upper-cases
the whole `Name` value *before* splitting on `", "`. -/
theorem C8_scenario_counterexample :
    (buildOutreachList 20300
      ⟨["Name", "Deceased", "Most Recent Encounter Date", "Next Appointment Date"],
       [[FCell.s "Smith, Jane", FCell.s "N", FCell.dtv 20180, FCell.na]]⟩).rows =
      [[FCell.s "SMITH, JANE", FCell.s "N", FCell.dtv 20180, FCell.na,
        FCell.s "SMITH", FCell.s "JANE"]] ∧
    FCell.s "JANE" ≠ FCell.s "Jane" := by
  refine ⟨by decide, by decide⟩

/-- **C8 (amended)**: with today fixed at day 20300, an input row with
Name `"Smith, Jane"`, Deceased `"N"`, an encounter date 120 days before
today (day 20180) and a blank next-appointment date survives the full
pipeline, with derived Last Name `"SMITH"` and First Name `"JANE"` (both
uppercased, since the split happens after upper-casing); and for every
choice of today, an encounter date 120 days earlier passes the 90-day
cutoff comparison. -/
theorem C8_scenario_amended :
    buildOutreachList 20300
      ⟨["Name", "Deceased", "Most Recent Encounter Date", "Next Appointment Date"],
       [[FCell.s "Smith, Jane", FCell.s "N", FCell.dtv 20180, FCell.na]]⟩ =
    ⟨["Name", "Deceased", "Most Recent Encounter Date", "Next Appointment Date",
      "Last Name", "First Name"],
     [[FCell.s "SMITH, JANE", FCell.s "N", FCell.dtv 20180, FCell.na,
       FCell.s "SMITH", FCell.s "JANE"]]⟩ ∧
    (∀ t : Int, encLe (t - 90) (FCell.dtv (t - 120)) = true) := by
  constructor
  · decide
  · intro t
    show decide (t - 120 ≤ t - 90) = true
    rw [decide_eq_true_eq]
    omega

/-! ## C9: idempotence of the outreach filter

The proof exhibits a stability predicate `Stable`: the output of the
pipeline satisfies it, and the pipeline fixes every table satisfying it. -/

theorem toNat_ofNat_valid {n : Nat} (h : n.isValidChar) : (Char.ofNat n).toNat = n := by
  rw [Char.ofNat, dif_pos h]
  rfl

theorem toUpper_toUpper_eq (c : Char) : c.toUpper.toUpper = c.toUpper := by
  unfold Char.toUpper
  by_cases h : c.toNat ≥ 97 ∧ c.toNat ≤ 122
  · rw [if_pos h]
    have hv : Nat.isValidChar (c.toNat - 32) := Or.inl (by omega)
    rw [toNat_ofNat_valid hv, if_neg (by omega)]
  · rw [if_neg h, if_neg h]

theorem pyUpper_pyUpper (s : String) : pyUpper (pyUpper s) = pyUpper s := by
  unfold pyUpper
  show String.mk ((s.data.map Char.toUpper).map Char.toUpper) = _
  rw [List.map_map]
  have : Char.toUpper ∘ Char.toUpper = Char.toUpper := funext toUpper_toUpper_eq
  rw [this]

theorem map_id_of_mem {α : Type} {l : List α} {f : α → α}
    (h : ∀ x ∈ l, f x = x) : l.map f = l := by
  induction l with
  | nil => rfl
  | cons x t ih =>
    rw [List.map_cons, h x (List.mem_cons_self _ _),
      ih (fun y hy => h y (List.mem_cons_of_mem _ hy))]

theorem map_congr_mem {α β : Type} {l : List α} {f g : α → β}
    (h : ∀ x ∈ l, f x = g x) : l.map f = l.map g := by
  induction l with
  | nil => rfl
  | cons x t ih =>
    rw [List.map_cons, List.map_cons, h x (List.mem_cons_self _ _),
      ih (fun y hy => h y (List.mem_cons_of_mem _ hy))]

theorem DF.ext {α : Type} {df df' : DF α} (hc : df.cols = df'.cols)
    (hr : df.rows = df'.rows) : df = df' := by
  cases df
  cases df'
  simp only at hc hr
  rw [hc, hr]

theorem set_getD_self {α : Type} (nv : α) :
    ∀ (r : List α) (i : Nat), i < r.length → r.set i (r.getD i nv) = r := by
  intro r
  induction r with
  | nil => intro i h; simp at h
  | cons x t ih =>
    intro i h
    cases i with
    | zero => rfl
    | succ i =>
      show x :: t.set i (t.getD i nv) = x :: t
      rw [ih i (by simpa using h)]

theorem zipWith_set_self {α : Type} (nv : α) (i : Nat) :
    ∀ (rows : List (List α)), (∀ r ∈ rows, i < r.length) →
      List.zipWith (fun r v => r.set i v) rows (rows.map (fun r => r.getD i nv)) = rows := by
  intro rows
  induction rows with
  | nil => intro _; rfl
  | cons r t ih =>
    intro hlt
    rw [List.map_cons, List.zipWith_cons_cons,
      set_getD_self nv r i (hlt r (List.mem_cons_self _ _)),
      ih (fun r' hr' => hlt r' (List.mem_cons_of_mem _ hr'))]

/-- Writing a column's own cells back is the identity
(`df[c] = df[c]`). -/
theorem setCol_getColD_id {α : Type} (nv : α) {df : DF α} {c : String}
    (hwf : df.WellFormed) (hc : df.hasCol c = true) :
    df.setCol c (df.getColD nv c) = df := by
  obtain ⟨i, hi⟩ := hasCol_colIdx hc
  refine DF.ext (setCol_cols_of_some _ hi) ?_
  rw [setCol_rows_of_some _ hi, getColD_eq_map nv df c hi]
  exact zipWith_set_self nv i df.rows
    (fun r hr => by rw [hwf r hr]; exact colIdx_lt_length hi)

/-! Per-stage preservation of column presence. -/

theorem nameStep_hasCol {t : DF FCell} {c : String}
    (h1 : c ≠ "Name") (h2 : c ≠ "Last Name") (h3 : c ≠ "First Name") :
    (nameStep t).hasCol c = t.hasCol c := by
  unfold nameStep
  split
  · split <;>
      rw [hasCol_setCol_other _ _ h3, hasCol_setCol_other _ _ h2, hasCol_setCol_other _ _ h1]
  · rfl

theorem deceasedStep_hasCol (t : DF FCell) (c : String) :
    (deceasedStep t).hasCol c = t.hasCol c := by
  unfold deceasedStep
  split <;> rfl

theorem apptFilterStep_hasCol (t : DF FCell) (c : String) :
    (apptFilterStep t).hasCol c = t.hasCol c := rfl

theorem encFilterStep_hasCol (x90 : Int) (t : DF FCell) (c : String) :
    (encFilterStep x90 t).hasCol c = t.hasCol c := by
  unfold encFilterStep
  split <;> rfl

theorem languageStep_hasCol {t : DF FCell} {c : String} (hne : c ≠ "Language") :
    (languageStep t).hasCol c = t.hasCol c := by
  unfold languageStep
  split
  · exact hasCol_setCol_other _ _ hne
  · rfl

theorem mrnStep_hasCol {t : DF FCell} {c : String} (hne : c ≠ "MRN") :
    (mrnStep t).hasCol c = t.hasCol c := by
  unfold mrnStep
  split
  · exact hasCol_setCol_other _ _ hne
  · rfl

theorem dedupStep_hasCol (t : DF FCell) (c : String) :
    (dedupStep t).hasCol c = t.hasCol c := rfl

/-! Per-stage preservation of rectangularity. -/

theorem wf_rowsub {α : Type} {t : DF α} {rows' : List (List α)}
    (hwf : t.WellFormed) (hsub : ∀ r ∈ rows', r ∈ t.rows) :
    (DF.mk t.cols rows').WellFormed :=
  fun r hr => hwf r (hsub r hr)

theorem deceasedStep_wf {t : DF FCell} (hwf : t.WellFormed) :
    (deceasedStep t).WellFormed := by
  unfold deceasedStep
  split
  · exact wf_rowsub hwf (maskRows_sublist _ _)
  · exact hwf

theorem apptFilterStep_wf {t : DF FCell} (hwf : t.WellFormed) :
    (apptFilterStep t).WellFormed := by
  rw [apptFilterStep_eq]
  exact wf_rowsub hwf (fun r hr => List.mem_of_mem_filter hr)

theorem encFilterStep_wf (x90 : Int) {t : DF FCell} (hwf : t.WellFormed) :
    (encFilterStep x90 t).WellFormed := by
  unfold encFilterStep
  split
  · exact wf_rowsub hwf (maskRows_sublist _ _)
  · exact hwf

theorem dedupStep_wf {t : DF FCell} (hwf : t.WellFormed) :
    (dedupStep t).WellFormed :=
  wf_rowsub hwf (fun _ hr => mem_dedupFirst hr)

theorem languageStep_wf {t : DF FCell} (hwf : t.WellFormed) :
    (languageStep t).WellFormed := by
  unfold languageStep
  split
  · exact setCol_wf hwf (by rw [List.length_map]; exact length_getColD _ t _ (by assumption))
  · exact hwf

theorem mrnStep_wf {t : DF FCell} (hwf : t.WellFormed) :
    (mrnStep t).WellFormed := by
  unfold mrnStep
  split
  · exact setCol_wf hwf (by rw [List.length_map]; exact length_getColD _ t _ (by assumption))
  · exact hwf

theorem nameStep_wf {t : DF FCell} (hwf : t.WellFormed) :
    (nameStep t).WellFormed := by
  unfold nameStep
  split
  · rename_i hname
    have hlen0 := nameUpper_length t hname
    have hw1 : (t.setCol "Name" ((nameUpper t).map FCell.s)).WellFormed :=
      setCol_wf hwf (by rw [List.length_map, hlen0])
    have hr1 : (t.setCol "Name" ((nameUpper t).map FCell.s)).rows.length = t.rows.length :=
      setCol_rows_length (by rw [List.length_map, hlen0])
    split
    · refine setCol_wf (setCol_wf hw1 ?_) ?_
      · rw [List.length_map, hlen0, hr1]
      · rw [List.length_map, hlen0,
          setCol_rows_length (by rw [List.length_map, hlen0, hr1]), hr1]
    · refine setCol_wf (setCol_wf hw1 ?_) ?_
      · rw [List.length_map, hlen0, hr1]
      · rw [List.length_replicate,
          setCol_rows_length (by rw [List.length_map, hlen0, hr1]), hr1]
  · exact hwf

/-! Generic per-column cell facts, carried through the stages. -/

/-- Column `c` exists, the table is rectangular, and every cell of the
column satisfies `P`. -/
def ColFactW (c : String) (P : FCell → Prop) (t : DF FCell) : Prop :=
  t.WellFormed ∧ t.hasCol c = true ∧ ∀ x ∈ t.getColD FCell.na c, P x

theorem colFactW_setCol {t : DF FCell} {c : String} {P : FCell → Prop}
    {c' : String} {vals : List FCell} (hP : ColFactW c P t) (hne : c ≠ c')
    (hlen : vals.length = t.rows.length) : ColFactW c P (t.setCol c' vals) := by
  obtain ⟨hwf, hhas, hfact⟩ := hP
  refine ⟨setCol_wf hwf hlen, ?_, ?_⟩
  · rw [hasCol_setCol_other c' vals hne]
    exact hhas
  · rw [setCol_getColD_other FCell.na hwf hlen hne hhas]
    exact hfact

theorem colFactW_rowsub {t : DF FCell} {c : String} {P : FCell → Prop}
    {rows' : List (List FCell)} (hP : ColFactW c P t)
    (hsub : ∀ r ∈ rows', r ∈ t.rows) : ColFactW c P ⟨t.cols, rows'⟩ := by
  obtain ⟨hwf, hhas, hfact⟩ := hP
  exact ⟨wf_rowsub hwf hsub, hhas, getColD_subset FCell.na hsub hfact⟩

theorem colFactW_nameStep {t : DF FCell} {c : String} {P : FCell → Prop}
    (hP : ColFactW c P t) (h1 : c ≠ "Name") (h2 : c ≠ "Last Name")
    (h3 : c ≠ "First Name") : ColFactW c P (nameStep t) := by
  unfold nameStep
  split
  · rename_i hname
    have hlen0 := nameUpper_length t hname
    have hQ1 : ColFactW c P (t.setCol "Name" ((nameUpper t).map FCell.s)) :=
      colFactW_setCol hP h1 (by rw [List.length_map, hlen0])
    have hr1 : (t.setCol "Name" ((nameUpper t).map FCell.s)).rows.length = t.rows.length :=
      setCol_rows_length (by rw [List.length_map, hlen0])
    split
    · refine colFactW_setCol (colFactW_setCol hQ1 h2 ?_) h3 ?_
      · rw [List.length_map, hlen0, hr1]
      · rw [List.length_map, hlen0,
          setCol_rows_length (by rw [List.length_map, hlen0, hr1]), hr1]
    · refine colFactW_setCol (colFactW_setCol hQ1 h2 ?_) h3 ?_
      · rw [List.length_map, hlen0, hr1]
      · rw [List.length_replicate,
          setCol_rows_length (by rw [List.length_map, hlen0, hr1]), hr1]
  · exact hP

theorem colFactW_rename {t : DF FCell} {c : String} {P : FCell → Prop}
    (hP : ColFactW c P t) (h1 : c ≠ "Date of Birth") (h2 : c ≠ "DOB") :
    ColFactW c P (renameDobStep t) := by
  obtain ⟨hwf, hhas, hfact⟩ := hP
  exact ⟨renameDob_wf hwf, by rw [renameDob_hasCol t h1 h2]; exact hhas,
    by rw [renameDob_getColD FCell.na t h1 h2]; exact hfact⟩

theorem colFactW_deceased {t : DF FCell} {c : String} {P : FCell → Prop}
    (hP : ColFactW c P t) : ColFactW c P (deceasedStep t) := by
  unfold deceasedStep
  split
  · exact colFactW_rowsub hP (maskRows_sublist _ _)
  · exact hP

theorem colFactW_appt {t : DF FCell} {c : String} {P : FCell → Prop}
    (hP : ColFactW c P t) : ColFactW c P (apptFilterStep t) := by
  rw [apptFilterStep_eq]
  exact colFactW_rowsub hP (fun r hr => List.mem_of_mem_filter hr)

theorem colFactW_language {t : DF FCell} {c : String} {P : FCell → Prop}
    (hP : ColFactW c P t) (hne : c ≠ "Language") : ColFactW c P (languageStep t) := by
  unfold languageStep
  split
  · exact colFactW_setCol hP hne
      (by rw [List.length_map]; exact length_getColD _ t _ (by assumption))
  · exact hP

theorem colFactW_mrn {t : DF FCell} {c : String} {P : FCell → Prop}
    (hP : ColFactW c P t) (hne : c ≠ "MRN") : ColFactW c P (mrnStep t) := by
  unfold mrnStep
  split
  · exact colFactW_setCol hP hne
      (by rw [List.length_map]; exact length_getColD _ t _ (by assumption))
  · exact hP

theorem colFactW_encFilter (x90 : Int) {t : DF FCell} {c : String} {P : FCell → Prop}
    (hP : ColFactW c P t) : ColFactW c P (encFilterStep x90 t) := by
  unfold encFilterStep
  split
  · exact colFactW_rowsub hP (maskRows_sublist _ _)
  · exact hP

theorem colFactW_dedup {t : DF FCell} {c : String} {P : FCell → Prop}
    (hP : ColFactW c P t) : ColFactW c P (dedupStep t) :=
  colFactW_rowsub hP (fun _ hr => mem_dedupFirst hr)

/-! Row-level transfer: setting one column leaves every other column's
cell of each (transformed) row unchanged. -/

theorem setCol_row_transfer {t : DF FCell} {c : String} {vals : List FCell}
    (hwf : t.WellFormed) (_hlen : vals.length = t.rows.length) :
    ∀ r' ∈ (t.setCol c vals).rows, ∃ r ∈ t.rows,
      ∀ c', c' ≠ c → t.hasCol c' = true →
        cellAt FCell.na (t.setCol c vals) c' r' = cellAt FCell.na t c' r := by
  intro r' hr'
  cases hidx : t.colIdx c with
  | some j =>
    rw [setCol_rows_of_some vals hidx] at hr'
    obtain ⟨r, hr, v, _, rfl⟩ := exists_of_mem_zipWith hr'
    refine ⟨r, hr, ?_⟩
    intro c' hne hc'
    obtain ⟨i, hi⟩ := hasCol_colIdx hc'
    have hii : i ≠ j := colIdx_inj hne hi hidx
    unfold cellAt
    rw [colIdx_setCol_of_some vals hidx, hi]
    simp [List.getD_eq_getElem?_getD, List.getElem?_set_ne (Ne.symm hii)]
  | none =>
    rw [setCol_rows_of_none vals hidx] at hr'
    obtain ⟨r, hr, v, _, rfl⟩ := exists_of_mem_zipWith hr'
    refine ⟨r, hr, ?_⟩
    intro c' hne hc'
    obtain ⟨i, hi⟩ := hasCol_colIdx hc'
    unfold cellAt
    rw [colIdx_setCol_none_ne vals hidx hne, hi]
    have hlt : i < r.length := by rw [hwf r hr]; exact colIdx_lt_length hi
    simp [List.getD_eq_getElem?_getD, List.getElem?_append_left hlt]

theorem cellAt_mk_cols {t : DF FCell} (rows' : List (List FCell)) (c : String)
    (r : List FCell) :
    cellAt FCell.na (DF.mk t.cols rows') c r = cellAt FCell.na t c r := rfl

theorem cellAt_rename {t : DF FCell} {c : String} (h1 : c ≠ "Date of Birth")
    (h2 : c ≠ "DOB") (r : List FCell) :
    cellAt FCell.na (renameDobStep t) c r = cellAt FCell.na t c r := by
  unfold cellAt
  rw [renameDob_colIdx t h1 h2]

theorem forall_rows_getColD {t : DF FCell} {c : String} (hc : t.hasCol c = true)
    {P : FCell → Prop} :
    (∀ x ∈ t.getColD FCell.na c, P x) ↔ ∀ r ∈ t.rows, P (cellAt FCell.na t c r) := by
  rw [getColD_eq_map_cellAt _ _ _ hc]
  constructor
  · exact fun h r hr => h _ (List.mem_map_of_mem _ hr)
  · intro h x hx
    obtain ⟨r, hr, rfl⟩ := List.mem_map.mp hx
    exact h r hr

/-! The stability predicate: everything the pipeline's output guarantees,
and everything a second pass needs in order to change nothing. -/

/-- The per-row relation between the `Name`, `Last Name` and `First Name`
columns that the name step (re)establishes. -/
def NameRowFact (t : DF FCell) (r : List FCell) : Prop :=
  (∃ u, cellAt FCell.na t "Name" r = FCell.s u ∧ pyUpper u = u) ∧
  cellAt FCell.na t "Last Name" r =
    FCell.s (csHead (astypeStrF (cellAt FCell.na t "Name" r))) ∧
  cellAt FCell.na t "First Name" r =
    (if hasCS (astypeStrF (cellAt FCell.na t "Name" r)) then
      FCell.s (csRest (astypeStrF (cellAt FCell.na t "Name" r))) else FCell.na)

/-- A table the outreach pipeline leaves unchanged (relative to the
cutoff `x90`).  The pipeline's own output always satisfies it. -/
def Stable (x90 : Int) (t : DF FCell) : Prop :=
  t.WellFormed ∧
  t.hasCol "Most Recent Encounter Date" = true ∧
  t.hasCol "Next Appointment Date" = true ∧
  (∀ x ∈ t.getColD FCell.na "Most Recent Encounter Date", ∃ d, x = FCell.dtv d ∧ d ≤ x90) ∧
  (∀ x ∈ t.getColD FCell.na "Next Appointment Date",
    x = FCell.na ∨ ∃ d, x = FCell.dtv d) ∧
  (t.hasCol "Date of Birth" = true → t.hasCol "DOB" = true) ∧
  (t.hasCol "Deceased" = true → ∀ x ∈ t.getColD FCell.na "Deceased", x = FCell.s "N") ∧
  (t.hasCol "Name" = true →
    t.hasCol "Last Name" = true ∧ t.hasCol "First Name" = true ∧
    ∀ r ∈ t.rows, NameRowFact t r) ∧
  (∀ r ∈ t.rows, apptRowPred t r = true) ∧
  (t.hasCol "Language" = true →
    ∀ x ∈ t.getColD FCell.na "Language", recodeLangF x = x) ∧
  (t.hasCol "MRN" = true → ∀ x ∈ t.getColD FCell.na "MRN", ∃ v, x = FCell.s v) ∧
  t.rows.Nodup

/-! Fixed-point lemmas: each stage leaves a stable table unchanged. -/

theorem csHead_eq_self {v : String} (h : hasCS v = false) : csHead v = v := by
  unfold hasCS at h
  unfold csHead
  cases hs : splitOnce ", " v with
  | none => rfl
  | some p => rw [hs] at h; simp at h

theorem encCoerce_fix {t : DF FCell} (hwf : t.WellFormed)
    (hhas : t.hasCol "Most Recent Encounter Date" = true)
    (hcells : ∀ x ∈ t.getColD FCell.na "Most Recent Encounter Date",
      x = FCell.na ∨ ∃ d, x = FCell.dtv d) :
    encCoerce t = t := by
  unfold encCoerce toDatetimeCol
  rw [if_pos hhas]
  have hmap : (t.getColD FCell.na "Most Recent Encounter Date").map pdToDatetime =
      t.getColD FCell.na "Most Recent Encounter Date" := by
    apply map_id_of_mem
    intro x hx
    rcases hcells x hx with h | ⟨d, h⟩ <;> subst h <;> rfl
  rw [hmap]
  exact setCol_getColD_id FCell.na hwf hhas

theorem apptCoerce_fix {t : DF FCell} (hwf : t.WellFormed)
    (hhas : t.hasCol "Next Appointment Date" = true)
    (hcells : ∀ x ∈ t.getColD FCell.na "Next Appointment Date",
      x = FCell.na ∨ ∃ d, x = FCell.dtv d) :
    apptCoerce t = t := by
  unfold apptCoerce toDatetimeCol
  rw [if_pos hhas]
  have hmap : (t.getColD FCell.na "Next Appointment Date").map pdToDatetime =
      t.getColD FCell.na "Next Appointment Date" := by
    apply map_id_of_mem
    intro x hx
    rcases hcells x hx with h | ⟨d, h⟩ <;> subst h <;> rfl
  rw [hmap]
  exact setCol_getColD_id FCell.na hwf hhas

theorem nameStep_fix {t : DF FCell} (hwf : t.WellFormed)
    (hname : t.hasCol "Name" = true →
      t.hasCol "Last Name" = true ∧ t.hasCol "First Name" = true ∧
      ∀ r ∈ t.rows, NameRowFact t r) :
    nameStep t = t := by
  unfold nameStep
  split
  · rename_i hn
    obtain ⟨hlast, hfirst, hrows⟩ := hname hn
    have hnu : nameUpper t = t.rows.map
        (fun r => pyUpper (astypeStrF (cellAt FCell.na t "Name" r))) := by
      unfold nameUpper
      rw [getColD_eq_map_cellAt _ _ _ hn, List.map_map]
      rfl
    have hastype : ∀ r ∈ t.rows,
        astypeStrF (cellAt FCell.na t "Name" r) =
          pyUpper (astypeStrF (cellAt FCell.na t "Name" r)) := by
      intro r hr
      obtain ⟨⟨u, hu, hup⟩, _, _⟩ := hrows r hr
      rw [hu]
      show u = pyUpper u
      exact hup.symm
    have hnsc : (nameUpper t).map FCell.s = t.getColD FCell.na "Name" := by
      rw [hnu, List.map_map, getColD_eq_map_cellAt _ _ _ hn]
      apply map_congr_mem
      intro r hr
      obtain ⟨⟨u, hu, hup⟩, _, _⟩ := hrows r hr
      show FCell.s (pyUpper (astypeStrF (cellAt FCell.na t "Name" r))) = _
      rw [hu]
      show FCell.s (pyUpper u) = FCell.s u
      rw [hup]
    rw [hnsc, setCol_getColD_id FCell.na hwf hn]
    have hlv : ∀ f : String → FCell, (∀ r ∈ t.rows,
        f (pyUpper (astypeStrF (cellAt FCell.na t "Name" r))) =
          cellAt FCell.na t "Last Name" r) →
        (nameUpper t).map f = t.getColD FCell.na "Last Name" := by
      intro f hf
      rw [hnu, List.map_map, getColD_eq_map_cellAt _ _ _ hlast]
      exact map_congr_mem hf
    have hfv : ∀ f : String → FCell, (∀ r ∈ t.rows,
        f (pyUpper (astypeStrF (cellAt FCell.na t "Name" r))) =
          cellAt FCell.na t "First Name" r) →
        (nameUpper t).map f = t.getColD FCell.na "First Name" := by
      intro f hf
      rw [hnu, List.map_map, getColD_eq_map_cellAt _ _ _ hfirst]
      exact map_congr_mem hf
    split
    · rw [hlv (fun v => FCell.s (csHead v)) (by
        intro r hr
        show FCell.s (csHead (pyUpper (astypeStrF (cellAt FCell.na t "Name" r)))) = _
        rw [← hastype r hr]
        exact ((hrows r hr).2.1).symm),
        setCol_getColD_id FCell.na hwf hlast,
        hfv (fun v => if hasCS v then FCell.s (csRest v) else FCell.na) (by
          intro r hr
          show (if hasCS (pyUpper (astypeStrF (cellAt FCell.na t "Name" r))) then
            FCell.s (csRest (pyUpper (astypeStrF (cellAt FCell.na t "Name" r))))
            else FCell.na) = _
          rw [← hastype r hr]
          exact ((hrows r hr).2.2).symm),
        setCol_getColD_id FCell.na hwf hfirst]
    · rename_i hcs
      have hnocs : ∀ v ∈ nameUpper t, hasCS v = false := by
        intro v hv
        cases h : hasCS v with
        | false => rfl
        | true => exact absurd (List.any_eq_true.mpr ⟨v, hv, h⟩) hcs
      have hnocs' : ∀ r ∈ t.rows,
          hasCS (astypeStrF (cellAt FCell.na t "Name" r)) = false := by
        intro r hr
        rw [hastype r hr]
        exact hnocs _ (by rw [hnu]; exact List.mem_map_of_mem _ hr)
      have hEq : t.getColD FCell.na "Name" = t.getColD FCell.na "Last Name" := by
        rw [getColD_eq_map_cellAt _ _ _ hn, getColD_eq_map_cellAt _ _ _ hlast]
        apply map_congr_mem
        intro r hr
        obtain ⟨⟨u, hu, _⟩, hlasteq, _⟩ := hrows r hr
        rw [hlasteq, csHead_eq_self (hnocs' r hr), hu]
        rfl
      rw [hEq, setCol_getColD_id FCell.na hwf hlast]
      have hrep : List.replicate t.rows.length FCell.na =
          t.getColD FCell.na "First Name" := by
        rw [getColD_eq_map_cellAt _ _ _ hfirst, ← List.map_const' t.rows FCell.na]
        apply map_congr_mem
        intro r hr
        show FCell.na = _
        rw [(hrows r hr).2.2, if_neg (by simp [hnocs' r hr])]
      rw [hrep, setCol_getColD_id FCell.na hwf hfirst]
  · rfl

theorem renameDob_fix {t : DF FCell}
    (himp : t.hasCol "Date of Birth" = true → t.hasCol "DOB" = true) :
    renameDobStep t = t := by
  unfold renameDobStep
  split
  · rename_i hcond
    rw [Bool.and_eq_true] at hcond
    have := himp hcond.1
    rw [this] at hcond
    simp at hcond
  · rfl

theorem deceasedStep_fix {t : DF FCell}
    (hdec : t.hasCol "Deceased" = true →
      ∀ x ∈ t.getColD FCell.na "Deceased", x = FCell.s "N") :
    deceasedStep t = t := by
  unfold deceasedStep
  split
  · rename_i h
    refine DF.ext rfl ?_
    show maskRows t.rows _ = t.rows
    rw [getColD_eq_map_cellAt _ _ _ h, List.map_map, maskRows_map, List.filter_eq_self]
    intro r hr
    have hcell := (forall_rows_getColD h).mp (hdec h) r hr
    show (cellAt FCell.na t "Deceased" r == FCell.s "N") = true
    rw [hcell]
    rfl
  · rfl

theorem apptFilterStep_fix {t : DF FCell}
    (hpred : ∀ r ∈ t.rows, apptRowPred t r = true) :
    apptFilterStep t = t := by
  rw [apptFilterStep_eq]
  refine DF.ext rfl ?_
  show t.rows.filter _ = t.rows
  rw [List.filter_eq_self]
  exact hpred

theorem languageStep_fix {t : DF FCell} (hwf : t.WellFormed)
    (hlang : t.hasCol "Language" = true →
      ∀ x ∈ t.getColD FCell.na "Language", recodeLangF x = x) :
    languageStep t = t := by
  unfold languageStep
  split
  · rename_i h
    rw [map_id_of_mem (hlang h)]
    exact setCol_getColD_id FCell.na hwf h
  · rfl

theorem mrnStep_fix {t : DF FCell} (hwf : t.WellFormed)
    (hmrn : t.hasCol "MRN" = true →
      ∀ x ∈ t.getColD FCell.na "MRN", ∃ v, x = FCell.s v) :
    mrnStep t = t := by
  unfold mrnStep
  split
  · rename_i h
    have : (t.getColD FCell.na "MRN").map (fun c => FCell.s (astypeStrF c)) =
        t.getColD FCell.na "MRN" := by
      apply map_id_of_mem
      intro x hx
      obtain ⟨v, hv⟩ := hmrn h x hx
      rw [hv]
      rfl
    rw [this]
    exact setCol_getColD_id FCell.na hwf h
  · rfl

theorem encFilterStep_fix {x90 : Int} {t : DF FCell}
    (hhas : t.hasCol "Most Recent Encounter Date" = true)
    (hcells : ∀ x ∈ t.getColD FCell.na "Most Recent Encounter Date",
      ∃ d, x = FCell.dtv d ∧ d ≤ x90) :
    encFilterStep x90 t = t := by
  rw [encFilterStep_eq x90 t hhas]
  refine DF.ext rfl ?_
  show t.rows.filter _ = t.rows
  rw [List.filter_eq_self]
  intro r hr
  obtain ⟨d, hd, hdle⟩ := (forall_rows_getColD hhas).mp hcells r hr
  unfold encRowPred
  rw [hd]
  exact decide_eq_true hdle

theorem dedupStep_fix {t : DF FCell} (hnd : t.rows.Nodup) : dedupStep t = t :=
  DF.ext rfl (dedupFirst_of_nodup hnd)

/-! Establishment lemmas: what each stage guarantees about its output,
and congruence lemmas to carry those guarantees down the pipeline. -/

theorem pdToDatetime_shape (c : FCell) :
    pdToDatetime c = FCell.na ∨ ∃ d, pdToDatetime c = FCell.dtv d := by
  cases c with
  | dtv d => exact Or.inr ⟨d, rfl⟩
  | na => exact Or.inl rfl
  | s v =>
    simp only [pdToDatetime]
    cases h : parseYmd v with
    | some p => exact Or.inr ⟨_, rfl⟩
    | none => exact Or.inl rfl

theorem toDatetimeCol_shape (df : DF FCell) (c : String) :
    ∀ x ∈ toDatetimeCol df c, x = FCell.na ∨ ∃ d, x = FCell.dtv d := by
  intro x hx
  unfold toDatetimeCol at hx
  split at hx
  · obtain ⟨y, _, rfl⟩ := List.mem_map.mp hx
    exact pdToDatetime_shape y
  · exact Or.inl (List.eq_of_mem_replicate hx)

theorem recodeLangF_idem (c : FCell) : recodeLangF (recodeLangF c) = recodeLangF c := by
  unfold recodeLangF
  cases h : (c == FCell.s "Spanish; Castilian") with
  | true => simp
  | false => simp [h]

theorem renameDob_post (t : DF FCell) :
    (renameDobStep t).hasCol "Date of Birth" = true →
    (renameDobStep t).hasCol "DOB" = true := by
  unfold renameDobStep
  split
  · intro h
    exfalso
    have hnone : List.findIdx? (fun x => x = "Date of Birth")
        (t.cols.map (fun c => if c = "Date of Birth" then "DOB" else c)) = none := by
      rw [List.findIdx?_eq_none_iff]
      intro x hx
      obtain ⟨y, _, rfl⟩ := List.mem_map.mp hx
      by_cases hy : y = "Date of Birth"
      · rw [if_pos hy]
        decide
      · rw [if_neg hy]
        simp [hy]
    unfold DF.hasCol DF.colIdx at h
    rw [hnone] at h
    simp at h
  · rename_i hcond
    intro h
    cases hD : t.hasCol "DOB" with
    | true => rfl
    | false =>
      exact absurd (show (t.hasCol "Date of Birth" && !t.hasCol "DOB") = true by
        rw [h, hD]; rfl) hcond

theorem getColD_getElem? {t : DF FCell} {c : String} (hc : t.hasCol c = true)
    {i : Nat} (hi : i < t.rows.length) :
    (t.getColD FCell.na c)[i]? = some (cellAt FCell.na t c t.rows[i]) := by
  rw [getColD_eq_map_cellAt FCell.na t c hc,
    List.getElem?_eq_getElem (by rw [List.length_map]; exact hi), List.getElem_map]

theorem cellAt_eq_of_getColD {t : DF FCell} {c : String} (hc : t.hasCol c = true)
    {vals : List FCell} (hg : t.getColD FCell.na c = vals) {i : Nat}
    (hi : i < t.rows.length) {x : FCell} (hx : vals[i]? = some x) :
    cellAt FCell.na t c (t.rows[i]) = x := by
  have h0 := getColD_getElem? hc hi
  rw [hg, hx] at h0
  exact (Option.some.inj h0).symm

theorem deceasedStep_cols (t : DF FCell) : (deceasedStep t).cols = t.cols := by
  unfold deceasedStep
  split <;> rfl

theorem deceasedStep_sub (t : DF FCell) : ∀ r ∈ (deceasedStep t).rows, r ∈ t.rows := by
  unfold deceasedStep
  split
  · exact maskRows_sublist _ _
  · exact fun r hr => hr

theorem apptFilterStep_sub (t : DF FCell) :
    ∀ r ∈ (apptFilterStep t).rows, r ∈ t.rows := by
  rw [apptFilterStep_eq]
  exact fun r hr => List.mem_of_mem_filter hr

theorem encFilterStep_cols (x90 : Int) (t : DF FCell) :
    (encFilterStep x90 t).cols = t.cols := by
  unfold encFilterStep
  split <;> rfl

theorem encFilterStep_sub (x90 : Int) (t : DF FCell) :
    ∀ r ∈ (encFilterStep x90 t).rows, r ∈ t.rows := by
  unfold encFilterStep
  split
  · exact maskRows_sublist _ _
  · exact fun r hr => hr

theorem nameRowFact_cols {t t' : DF FCell} (h : t'.cols = t.cols) {r : List FCell}
    (hf : NameRowFact t r) : NameRowFact t' r := by
  have hc : ∀ c, cellAt FCell.na t' c r = cellAt FCell.na t c r := by
    intro c
    unfold cellAt DF.colIdx
    rw [h]
  obtain ⟨⟨u, hu, hup⟩, hl, hfst⟩ := hf
  exact ⟨⟨u, by simp only [hc]; exact hu, hup⟩, by simp only [hc]; exact hl,
    by simp only [hc]; exact hfst⟩

theorem apptRowPred_cols {t t' : DF FCell} (h : t'.cols = t.cols) (r : List FCell) :
    apptRowPred t' r = apptRowPred t r := by
  unfold apptRowPred dateNaPred containsPred cellAt DF.hasCol DF.colIdx
  rw [h]

theorem encCoerce_hasCol_self (t : DF FCell) :
    (encCoerce t).hasCol "Most Recent Encounter Date" = true :=
  hasCol_setCol_self t _ _

theorem apptCoerce_hasCol_self (t : DF FCell) :
    (apptCoerce t).hasCol "Next Appointment Date" = true :=
  hasCol_setCol_self t _ _

theorem apptCoerce_hasCol_other {t : DF FCell} {c : String}
    (h : c ≠ "Next Appointment Date") :
    (apptCoerce t).hasCol c = t.hasCol c :=
  hasCol_setCol_other _ _ h

theorem deceasedStep_post {t : DF FCell} (hwf : t.WellFormed)
    (h : t.hasCol "Deceased" = true) :
    ColFactW "Deceased" (fun x => x = FCell.s "N") (deceasedStep t) := by
  refine ⟨deceasedStep_wf hwf, by rw [deceasedStep_hasCol]; exact h, ?_⟩
  unfold deceasedStep
  rw [if_pos h, getColD_eq_map_cellAt FCell.na t _ h, List.map_map, maskRows_map]
  intro x hx
  rw [getColD_eq_map_cellAt FCell.na _ _
    (show (DF.mk t.cols (t.rows.filter
      ((fun c => c == FCell.s "N") ∘ cellAt FCell.na t "Deceased"))).hasCol "Deceased" = true
      from h)] at hx
  obtain ⟨r, hr, rfl⟩ := List.mem_map.mp hx
  have hr' : r ∈ t.rows.filter ((fun c => c == FCell.s "N") ∘ cellAt FCell.na t "Deceased") :=
    hr
  have hp := List.of_mem_filter hr'
  simp only [Function.comp] at hp
  exact eq_of_beq hp

theorem encFilterStep_post (x90 : Int) {t : DF FCell}
    (h : t.hasCol "Most Recent Encounter Date" = true) :
    ∀ x ∈ (encFilterStep x90 t).getColD FCell.na "Most Recent Encounter Date",
      ∃ d, x = FCell.dtv d ∧ d ≤ x90 := by
  rw [encFilterStep_eq x90 t h]
  intro x hx
  rw [getColD_eq_map_cellAt FCell.na _ _
    (show (DF.mk t.cols (t.rows.filter
      (encRowPred x90 t))).hasCol "Most Recent Encounter Date" = true from h)] at hx
  obtain ⟨r, hr, rfl⟩ := List.mem_map.mp hx
  have hpred := List.of_mem_filter hr
  unfold encRowPred at hpred
  cases hc : cellAt FCell.na t "Most Recent Encounter Date" r with
  | dtv d =>
    rw [hc] at hpred
    exact ⟨d, hc, of_decide_eq_true hpred⟩
  | s v =>
    rw [hc] at hpred
    simp [encLe] at hpred
  | na =>
    rw [hc] at hpred
    simp [encLe] at hpred

theorem languageStep_post {t : DF FCell} (hwf : t.WellFormed) :
    (languageStep t).hasCol "Language" = true →
    ∀ x ∈ (languageStep t).getColD FCell.na "Language", recodeLangF x = x := by
  unfold languageStep
  split
  · rename_i h
    intro _
    rw [setCol_getColD_self FCell.na hwf
      (by rw [List.length_map]; exact length_getColD _ _ _ h)]
    intro x hx
    obtain ⟨y, _, rfl⟩ := List.mem_map.mp hx
    exact recodeLangF_idem y
  · rename_i h
    intro hcontra
    exact absurd hcontra h

theorem mrnStep_post {t : DF FCell} (hwf : t.WellFormed) :
    (mrnStep t).hasCol "MRN" = true →
    ∀ x ∈ (mrnStep t).getColD FCell.na "MRN", ∃ v, x = FCell.s v := by
  unfold mrnStep
  split
  · rename_i h
    intro _
    rw [setCol_getColD_self FCell.na hwf
      (by rw [List.length_map]; exact length_getColD _ _ _ h)]
    intro x hx
    obtain ⟨y, _, rfl⟩ := List.mem_map.mp hx
    exact ⟨astypeStrF y, rfl⟩
  · rename_i h
    intro hcontra
    exact absurd hcontra h

/-! The name step's postcondition: the three name columns exist and every
row satisfies `NameRowFact`. -/

theorem nameStep_setCol3 {t : DF FCell} (hwf : t.WellFormed) (hn : t.hasCol "Name" = true)
    {fL fF : String → FCell}
    (hLspec : ∀ v ∈ nameUpper t, fL v = FCell.s (csHead v))
    (hFspec : ∀ v ∈ nameUpper t, fF v = if hasCS v then FCell.s (csRest v) else FCell.na) :
    (((t.setCol "Name" ((nameUpper t).map FCell.s)).setCol "Last Name"
        ((nameUpper t).map fL)).setCol "First Name"
        ((nameUpper t).map fF)).hasCol "Name" = true ∧
    (((t.setCol "Name" ((nameUpper t).map FCell.s)).setCol "Last Name"
        ((nameUpper t).map fL)).setCol "First Name"
        ((nameUpper t).map fF)).hasCol "Last Name" = true ∧
    (((t.setCol "Name" ((nameUpper t).map FCell.s)).setCol "Last Name"
        ((nameUpper t).map fL)).setCol "First Name"
        ((nameUpper t).map fF)).hasCol "First Name" = true ∧
    ∀ r ∈ (((t.setCol "Name" ((nameUpper t).map FCell.s)).setCol "Last Name"
        ((nameUpper t).map fL)).setCol "First Name" ((nameUpper t).map fF)).rows,
      NameRowFact (((t.setCol "Name" ((nameUpper t).map FCell.s)).setCol "Last Name"
        ((nameUpper t).map fL)).setCol "First Name" ((nameUpper t).map fF)) r := by
  have hulen : (nameUpper t).length = t.rows.length := nameUpper_length t hn
  have hus : ∀ v ∈ nameUpper t, pyUpper v = v := by
    intro v hv
    obtain ⟨y, _, rfl⟩ := List.mem_map.mp hv
    exact pyUpper_pyUpper _
  set us := nameUpper t with hu0
  set T1 := t.setCol "Name" (us.map FCell.s) with hT1
  set T2 := T1.setCol "Last Name" (us.map fL) with hT2
  set T3 := T2.setCol "First Name" (us.map fF) with hT3
  have hlen1 : (us.map FCell.s).length = t.rows.length := by rw [List.length_map, hulen]
  have w1 : T1.WellFormed := setCol_wf hwf hlen1
  have r1 : T1.rows.length = t.rows.length := setCol_rows_length hlen1
  have hlen2 : (us.map fL).length = T1.rows.length := by rw [List.length_map, hulen, r1]
  have w2 : T2.WellFormed := setCol_wf w1 hlen2
  have r2 : T2.rows.length = T1.rows.length := setCol_rows_length hlen2
  have hlen3 : (us.map fF).length = T2.rows.length := by
    rw [List.length_map, hulen, r2, r1]
  have r3 : T3.rows.length = T2.rows.length := setCol_rows_length hlen3
  have hN1 : T1.hasCol "Name" = true := hasCol_setCol_self t _ _
  have hN2 : T2.hasCol "Name" = true := by
    rw [hT2, hasCol_setCol_other _ _ (by decide)]
    exact hN1
  have hN3 : T3.hasCol "Name" = true := by
    rw [hT3, hasCol_setCol_other _ _ (by decide)]
    exact hN2
  have hL2 : T2.hasCol "Last Name" = true := hasCol_setCol_self T1 _ _
  have hL3 : T3.hasCol "Last Name" = true := by
    rw [hT3, hasCol_setCol_other _ _ (by decide)]
    exact hL2
  have hF3 : T3.hasCol "First Name" = true := hasCol_setCol_self T2 _ _
  have gN : T3.getColD FCell.na "Name" = us.map FCell.s := by
    rw [hT3, setCol_getColD_other FCell.na w2 hlen3 (by decide) hN2,
      hT2, setCol_getColD_other FCell.na w1 hlen2 (by decide) hN1,
      hT1, setCol_getColD_self FCell.na hwf hlen1]
  have gL : T3.getColD FCell.na "Last Name" = us.map fL := by
    rw [hT3, setCol_getColD_other FCell.na w2 hlen3 (by decide) hL2,
      hT2, setCol_getColD_self FCell.na w1 hlen2]
  have gF : T3.getColD FCell.na "First Name" = us.map fF := by
    rw [hT3, setCol_getColD_self FCell.na w2 hlen3]
  refine ⟨hN3, hL3, hF3, ?_⟩
  intro r hr
  obtain ⟨i, hi, hri⟩ := List.getElem_of_mem hr
  have hiu : i < us.length := by
    rw [hulen]
    rw [r3, r2, r1] at hi
    exact hi
  have hmem : us[i] ∈ us := List.getElem_mem hiu
  have hup := hus _ hmem
  have eN : cellAt FCell.na T3 "Name" r = FCell.s us[i] := by
    rw [← hri]
    exact cellAt_eq_of_getColD hN3 gN hi
      (by rw [List.getElem?_eq_getElem (by rw [List.length_map]; exact hiu),
        List.getElem_map])
  have eL : cellAt FCell.na T3 "Last Name" r = FCell.s (csHead us[i]) := by
    rw [← hri]
    have h2 := cellAt_eq_of_getColD hL3 gL hi
      (by rw [List.getElem?_eq_getElem (by rw [List.length_map]; exact hiu),
        List.getElem_map])
    rw [h2, hLspec _ hmem]
  have eF : cellAt FCell.na T3 "First Name" r =
      (if hasCS us[i] then FCell.s (csRest us[i]) else FCell.na) := by
    rw [← hri]
    have h2 := cellAt_eq_of_getColD hF3 gF hi
      (by rw [List.getElem?_eq_getElem (by rw [List.length_map]; exact hiu),
        List.getElem_map])
    rw [h2, hFspec _ hmem]
  refine ⟨⟨us[i], eN, hup⟩, ?_, ?_⟩
  · rw [eL, eN]
    rfl
  · rw [eF, eN]
    rfl

theorem nameStep_package {t : DF FCell} (hwf : t.WellFormed)
    (hn : t.hasCol "Name" = true) :
    (nameStep t).hasCol "Name" = true ∧ (nameStep t).hasCol "Last Name" = true ∧
    (nameStep t).hasCol "First Name" = true ∧
    ∀ r ∈ (nameStep t).rows, NameRowFact (nameStep t) r := by
  unfold nameStep
  rw [if_pos hn]
  split
  · exact nameStep_setCol3 hwf hn (fun v _ => rfl) (fun v _ => rfl)
  · rename_i hcs
    have hnocs : ∀ v ∈ nameUpper t, hasCS v = false := by
      intro v hv
      cases h : hasCS v with
      | false => rfl
      | true => exact absurd (List.any_eq_true.mpr ⟨v, hv, h⟩) hcs
    rw [← nameUpper_length t hn, ← List.map_const']
    exact nameStep_setCol3 hwf hn
      (fun v hv => by rw [csHead_eq_self (hnocs v hv)])
      (fun v hv => by rw [if_neg (by simp [hnocs v hv])])

/-! Carrying the row facts through the later stages. -/

theorem nameRowFact_setCol {t : DF FCell} {c : String} {vals : List FCell}
    (hwf : t.WellFormed) (hlen : vals.length = t.rows.length)
    (h1 : c ≠ "Name") (h2 : c ≠ "Last Name") (h3 : c ≠ "First Name")
    (hn : t.hasCol "Name" = true) (hl : t.hasCol "Last Name" = true)
    (hf : t.hasCol "First Name" = true)
    (hall : ∀ r ∈ t.rows, NameRowFact t r) :
    ∀ r' ∈ (t.setCol c vals).rows, NameRowFact (t.setCol c vals) r' := by
  intro r' hr'
  obtain ⟨r, hr, htr⟩ := setCol_row_transfer hwf hlen r' hr'
  obtain ⟨⟨u, hu, hup⟩, hlast, hfirst⟩ := hall r hr
  have eN := htr _ (Ne.symm h1) hn
  have eL := htr _ (Ne.symm h2) hl
  have eF := htr _ (Ne.symm h3) hf
  exact ⟨⟨u, by rw [eN]; exact hu, hup⟩, by rw [eL, eN]; exact hlast,
    by rw [eF, eN]; exact hfirst⟩

theorem nameRowFact_rename {t : DF FCell} (hall : ∀ r ∈ t.rows, NameRowFact t r) :
    ∀ r ∈ (renameDobStep t).rows, NameRowFact (renameDobStep t) r := by
  intro r hr
  rw [renameDob_rows] at hr
  obtain ⟨⟨u, hu, hup⟩, hl, hf⟩ := hall r hr
  have eN : cellAt FCell.na (renameDobStep t) "Name" r = cellAt FCell.na t "Name" r :=
    cellAt_rename (by decide) (by decide) r
  have eL : cellAt FCell.na (renameDobStep t) "Last Name" r =
      cellAt FCell.na t "Last Name" r :=
    cellAt_rename (by decide) (by decide) r
  have eF : cellAt FCell.na (renameDobStep t) "First Name" r =
      cellAt FCell.na t "First Name" r :=
    cellAt_rename (by decide) (by decide) r
  exact ⟨⟨u, by rw [eN]; exact hu, hup⟩, by rw [eL, eN]; exact hl,
    by rw [eF, eN]; exact hf⟩

theorem nameRowFact_deceased {t : DF FCell} (hall : ∀ r ∈ t.rows, NameRowFact t r) :
    ∀ r ∈ (deceasedStep t).rows, NameRowFact (deceasedStep t) r := by
  intro r hr
  exact nameRowFact_cols (deceasedStep_cols t) (hall r (deceasedStep_sub t r hr))

theorem nameRowFact_appt {t : DF FCell} (hall : ∀ r ∈ t.rows, NameRowFact t r) :
    ∀ r ∈ (apptFilterStep t).rows, NameRowFact (apptFilterStep t) r := by
  intro r hr
  exact nameRowFact_cols (show (apptFilterStep t).cols = t.cols from rfl)
    (hall r (apptFilterStep_sub t r hr))

theorem nameRowFact_encFilter (x90 : Int) {t : DF FCell}
    (hall : ∀ r ∈ t.rows, NameRowFact t r) :
    ∀ r ∈ (encFilterStep x90 t).rows, NameRowFact (encFilterStep x90 t) r := by
  intro r hr
  exact nameRowFact_cols (encFilterStep_cols x90 t) (hall r (encFilterStep_sub x90 t r hr))

theorem nameRowFact_dedup {t : DF FCell} (hall : ∀ r ∈ t.rows, NameRowFact t r) :
    ∀ r ∈ (dedupStep t).rows, NameRowFact (dedupStep t) r := by
  intro r hr
  exact nameRowFact_cols (show (dedupStep t).cols = t.cols from rfl)
    (hall r (mem_dedupFirst hr))

theorem nameRowFact_language {t : DF FCell} (hwf : t.WellFormed)
    (hn : t.hasCol "Name" = true) (hl : t.hasCol "Last Name" = true)
    (hf : t.hasCol "First Name" = true) (hall : ∀ r ∈ t.rows, NameRowFact t r) :
    ∀ r ∈ (languageStep t).rows, NameRowFact (languageStep t) r := by
  unfold languageStep
  split
  · rename_i h
    exact nameRowFact_setCol hwf
      (by rw [List.length_map]; exact length_getColD _ _ _ h)
      (by decide) (by decide) (by decide) hn hl hf hall
  · exact hall

theorem nameRowFact_mrn {t : DF FCell} (hwf : t.WellFormed)
    (hn : t.hasCol "Name" = true) (hl : t.hasCol "Last Name" = true)
    (hf : t.hasCol "First Name" = true) (hall : ∀ r ∈ t.rows, NameRowFact t r) :
    ∀ r ∈ (mrnStep t).rows, NameRowFact (mrnStep t) r := by
  unfold mrnStep
  split
  · rename_i h
    exact nameRowFact_setCol hwf
      (by rw [List.length_map]; exact length_getColD _ _ _ h)
      (by decide) (by decide) (by decide) hn hl hf hall
  · exact hall

theorem apptRowPred_setCol {t : DF FCell} {c : String} {vals : List FCell}
    (hwf : t.WellFormed) (hlen : vals.length = t.rows.length)
    (h1 : c ≠ "Next Appointment Date") (h2 : c ≠ "Next Appointment Location")
    (h3 : c ≠ "Next Appointment Type")
    (hall : ∀ r ∈ t.rows, apptRowPred t r = true) :
    ∀ r' ∈ (t.setCol c vals).rows, apptRowPred (t.setCol c vals) r' = true := by
  intro r' hr'
  obtain ⟨r, hr, htr⟩ := setCol_row_transfer hwf hlen r' hr'
  have e1 : dateNaPred (t.setCol c vals) r' = dateNaPred t r := by
    unfold dateNaPred
    rw [hasCol_setCol_other c vals (Ne.symm h1)]
    cases hd : t.hasCol "Next Appointment Date" with
    | true => rw [if_pos rfl, if_pos rfl, htr _ (Ne.symm h1) hd]
    | false => rw [if_neg (by simp), if_neg (by simp)]
  have e2 : containsPred (t.setCol c vals) "Next Appointment Location" apptLocLabels r' =
      containsPred t "Next Appointment Location" apptLocLabels r := by
    unfold containsPred
    rw [hasCol_setCol_other c vals (Ne.symm h2)]
    cases hl : t.hasCol "Next Appointment Location" with
    | true => rw [if_pos rfl, if_pos rfl, htr _ (Ne.symm h2) hl]
    | false => rw [if_neg (by simp), if_neg (by simp)]
  have e3 : containsPred (t.setCol c vals) "Next Appointment Type" apptTypeLabels r' =
      containsPred t "Next Appointment Type" apptTypeLabels r := by
    unfold containsPred
    rw [hasCol_setCol_other c vals (Ne.symm h3)]
    cases ht : t.hasCol "Next Appointment Type" with
    | true => rw [if_pos rfl, if_pos rfl, htr _ (Ne.symm h3) ht]
    | false => rw [if_neg (by simp), if_neg (by simp)]
  unfold apptRowPred
  rw [e1, e2, e3]
  exact hall r hr

theorem apptRowPred_post {t : DF FCell} :
    ∀ r ∈ (apptFilterStep t).rows, apptRowPred (apptFilterStep t) r = true := by
  intro r hr
  rw [apptFilterStep_eq] at hr
  rw [apptRowPred_cols (show (apptFilterStep t).cols = t.cols from rfl) r]
  exact List.of_mem_filter hr

theorem apptRowPred_language {t : DF FCell} (hwf : t.WellFormed)
    (hall : ∀ r ∈ t.rows, apptRowPred t r = true) :
    ∀ r ∈ (languageStep t).rows, apptRowPred (languageStep t) r = true := by
  unfold languageStep
  split
  · rename_i h
    exact apptRowPred_setCol hwf
      (by rw [List.length_map]; exact length_getColD _ _ _ h)
      (by decide) (by decide) (by decide) hall
  · exact hall

theorem apptRowPred_mrn {t : DF FCell} (hwf : t.WellFormed)
    (hall : ∀ r ∈ t.rows, apptRowPred t r = true) :
    ∀ r ∈ (mrnStep t).rows, apptRowPred (mrnStep t) r = true := by
  unfold mrnStep
  split
  · rename_i h
    exact apptRowPred_setCol hwf
      (by rw [List.length_map]; exact length_getColD _ _ _ h)
      (by decide) (by decide) (by decide) hall
  · exact hall

theorem apptRowPred_encFilter {x90 : Int} {t : DF FCell}
    (hall : ∀ r ∈ t.rows, apptRowPred t r = true) :
    ∀ r ∈ (encFilterStep x90 t).rows, apptRowPred (encFilterStep x90 t) r = true := by
  intro r hr
  rw [apptRowPred_cols (encFilterStep_cols x90 t) r]
  exact hall r (encFilterStep_sub x90 t r hr)

theorem apptRowPred_dedup {t : DF FCell}
    (hall : ∀ r ∈ t.rows, apptRowPred t r = true) :
    ∀ r ∈ (dedupStep t).rows, apptRowPred (dedupStep t) r = true := by
  intro r hr
  rw [apptRowPred_cols (show (dedupStep t).cols = t.cols from rfl) r]
  exact hall r (mem_dedupFirst hr)

/-- The pipeline after the two `to_datetime` coercions (lines 182–235),
with an explicit cutoff: `buildOutreachList today df` is
`tailPipe (today - 90) (apptCoerce (encCoerce df))`. -/
def tailPipe (x90 : Int) (t : DF FCell) : DF FCell :=
  dedupStep (encFilterStep x90 (mrnStep (languageStep (apptFilterStep
    (deceasedStep (renameDobStep (nameStep t)))))))

theorem tailPipe_wf {x90 : Int} {t : DF FCell} (h : t.WellFormed) :
    (tailPipe x90 t).WellFormed :=
  dedupStep_wf (encFilterStep_wf x90 (mrnStep_wf (languageStep_wf (apptFilterStep_wf
    (deceasedStep_wf (renameDob_wf (nameStep_wf h)))))))

theorem tailPipe_hasCol {x90 : Int} {t : DF FCell} {c : String}
    (h1 : c ≠ "Language") (h2 : c ≠ "MRN") (h3 : c ≠ "Date of Birth") (h4 : c ≠ "DOB")
    (h5 : c ≠ "Name") (h6 : c ≠ "Last Name") (h7 : c ≠ "First Name") :
    (tailPipe x90 t).hasCol c = t.hasCol c := by
  unfold tailPipe
  rw [dedupStep_hasCol, encFilterStep_hasCol, mrnStep_hasCol h2, languageStep_hasCol h1,
    apptFilterStep_hasCol, deceasedStep_hasCol, renameDob_hasCol _ h3 h4,
    nameStep_hasCol h5 h6 h7]

theorem tailPipe_hasCol7 {x90 : Int} {t : DF FCell} {c : String}
    (h1 : c ≠ "Language") (h2 : c ≠ "MRN") :
    (tailPipe x90 t).hasCol c = (renameDobStep (nameStep t)).hasCol c := by
  unfold tailPipe
  rw [dedupStep_hasCol, encFilterStep_hasCol, mrnStep_hasCol h2, languageStep_hasCol h1,
    apptFilterStep_hasCol, deceasedStep_hasCol]

theorem tailPipe_hasCol_fromC (x90 : Int) {t : DF FCell} {c : String}
    (h1 : c ≠ "Language") (h2 : c ≠ "MRN") (h3 : c ≠ "Date of Birth") (h4 : c ≠ "DOB")
    (h : (nameStep t).hasCol c = true) : (tailPipe x90 t).hasCol c = true := by
  rw [tailPipe_hasCol7 h1 h2, renameDob_hasCol _ h3 h4]
  exact h

theorem colFactW_tail {x90 : Int} {t : DF FCell} {c : String} {P : FCell → Prop}
    (hP : ColFactW c P t) (h1 : c ≠ "Language") (h2 : c ≠ "MRN") (h3 : c ≠ "Date of Birth")
    (h4 : c ≠ "DOB") (h5 : c ≠ "Name") (h6 : c ≠ "Last Name") (h7 : c ≠ "First Name") :
    ColFactW c P (tailPipe x90 t) :=
  colFactW_dedup (colFactW_encFilter x90 (colFactW_mrn (colFactW_language (colFactW_appt
    (colFactW_deceased (colFactW_rename (colFactW_nameStep hP h5 h6 h7) h3 h4))) h1) h2))

theorem tailPipe_enc {x90 : Int} {t : DF FCell} (hwf : t.WellFormed)
    (henc : t.hasCol "Most Recent Encounter Date" = true) :
    ∀ x ∈ (tailPipe x90 t).getColD FCell.na "Most Recent Encounter Date",
      ∃ d, x = FCell.dtv d ∧ d ≤ x90 := by
  have wH := mrnStep_wf (languageStep_wf (apptFilterStep_wf (deceasedStep_wf
    (renameDob_wf (nameStep_wf hwf)))))
  have hH : (mrnStep (languageStep (apptFilterStep (deceasedStep
      (renameDobStep (nameStep t)))))).hasCol "Most Recent Encounter Date" = true := by
    rw [mrnStep_hasCol (by decide), languageStep_hasCol (by decide), apptFilterStep_hasCol,
      deceasedStep_hasCol, renameDob_hasCol _ (by decide) (by decide),
      nameStep_hasCol (by decide) (by decide) (by decide)]
    exact henc
  have hwI := encFilterStep_wf x90 wH
  have hII : (encFilterStep x90 (mrnStep (languageStep (apptFilterStep (deceasedStep
      (renameDobStep (nameStep t))))))).hasCol "Most Recent Encounter Date" = true := by
    rw [encFilterStep_hasCol]
    exact hH
  exact (colFactW_dedup ⟨hwI, hII, encFilterStep_post x90 hH⟩).2.2

theorem tailPipe_dob {x90 : Int} {t : DF FCell} :
    (tailPipe x90 t).hasCol "Date of Birth" = true →
    (tailPipe x90 t).hasCol "DOB" = true := by
  intro h
  rw [tailPipe_hasCol7 (by decide) (by decide)] at h ⊢
  exact renameDob_post _ h

theorem tailPipe_deceased {x90 : Int} {t : DF FCell} (hwf : t.WellFormed) :
    (tailPipe x90 t).hasCol "Deceased" = true →
    ∀ x ∈ (tailPipe x90 t).getColD FCell.na "Deceased", x = FCell.s "N" := by
  cases hdec : (renameDobStep (nameStep t)).hasCol "Deceased" with
  | false =>
    intro h
    rw [tailPipe_hasCol7 (by decide) (by decide), hdec] at h
    simp at h
  | true =>
    intro _
    have wD := renameDob_wf (nameStep_wf hwf)
    have fE := deceasedStep_post wD hdec
    exact (colFactW_dedup (colFactW_encFilter x90 (colFactW_mrn (colFactW_language
      (colFactW_appt fE) (by decide)) (by decide)))).2.2

theorem tailPipe_name {x90 : Int} {t : DF FCell} (hwf : t.WellFormed) :
    (tailPipe x90 t).hasCol "Name" = true →
    (tailPipe x90 t).hasCol "Last Name" = true ∧
    (tailPipe x90 t).hasCol "First Name" = true ∧
    ∀ r ∈ (tailPipe x90 t).rows, NameRowFact (tailPipe x90 t) r := by
  cases hnB : t.hasCol "Name" with
  | false =>
    intro h
    have hCB : nameStep t = t := by
      unfold nameStep
      rw [if_neg (by simp [hnB])]
    rw [tailPipe_hasCol7 (by decide) (by decide), hCB,
      renameDob_hasCol _ (by decide) (by decide), hnB] at h
    simp at h
  | true =>
    intro _
    have wC := nameStep_wf hwf
    have wD := renameDob_wf wC
    have wE := deceasedStep_wf wD
    have wF := apptFilterStep_wf wE
    have wG := languageStep_wf wF
    obtain ⟨hN3, hL3, hF3, hNR3⟩ := nameStep_package hwf hnB
    have hND : (renameDobStep (nameStep t)).hasCol "Name" = true := by
      rw [renameDob_hasCol _ (by decide) (by decide)]
      exact hN3
    have hLD : (renameDobStep (nameStep t)).hasCol "Last Name" = true := by
      rw [renameDob_hasCol _ (by decide) (by decide)]
      exact hL3
    have hFD : (renameDobStep (nameStep t)).hasCol "First Name" = true := by
      rw [renameDob_hasCol _ (by decide) (by decide)]
      exact hF3
    have hNF : (apptFilterStep (deceasedStep (renameDobStep
        (nameStep t)))).hasCol "Name" = true := by
      rw [apptFilterStep_hasCol, deceasedStep_hasCol]
      exact hND
    have hLF : (apptFilterStep (deceasedStep (renameDobStep
        (nameStep t)))).hasCol "Last Name" = true := by
      rw [apptFilterStep_hasCol, deceasedStep_hasCol]
      exact hLD
    have hFF : (apptFilterStep (deceasedStep (renameDobStep
        (nameStep t)))).hasCol "First Name" = true := by
      rw [apptFilterStep_hasCol, deceasedStep_hasCol]
      exact hFD
    have hNG : (languageStep (apptFilterStep (deceasedStep (renameDobStep
        (nameStep t))))).hasCol "Name" = true := by
      rw [languageStep_hasCol (by decide)]
      exact hNF
    have hLG : (languageStep (apptFilterStep (deceasedStep (renameDobStep
        (nameStep t))))).hasCol "Last Name" = true := by
      rw [languageStep_hasCol (by decide)]
      exact hLF
    have hFG : (languageStep (apptFilterStep (deceasedStep (renameDobStep
        (nameStep t))))).hasCol "First Name" = true := by
      rw [languageStep_hasCol (by decide)]
      exact hFF
    have n4 := nameRowFact_rename hNR3
    have n5 := nameRowFact_deceased n4
    have n6 := nameRowFact_appt n5
    have n7 := nameRowFact_language wF hNF hLF hFF n6
    have n8 := nameRowFact_mrn wG hNG hLG hFG n7
    have n9 := nameRowFact_encFilter x90 n8
    have n10 := nameRowFact_dedup n9
    exact ⟨tailPipe_hasCol_fromC x90 (by decide) (by decide) (by decide) (by decide) hL3,
      tailPipe_hasCol_fromC x90 (by decide) (by decide) (by decide) (by decide) hF3, n10⟩

theorem tailPipe_appt_pred {x90 : Int} {t : DF FCell} (hwf : t.WellFormed) :
    ∀ r ∈ (tailPipe x90 t).rows, apptRowPred (tailPipe x90 t) r = true := by
  have wF := apptFilterStep_wf (deceasedStep_wf (renameDob_wf (nameStep_wf hwf)))
  have wG := languageStep_wf wF
  exact apptRowPred_dedup (apptRowPred_encFilter (apptRowPred_mrn wG
    (apptRowPred_language wF apptRowPred_post)))

theorem tailPipe_language {x90 : Int} {t : DF FCell} (hwf : t.WellFormed) :
    (tailPipe x90 t).hasCol "Language" = true →
    ∀ x ∈ (tailPipe x90 t).getColD FCell.na "Language", recodeLangF x = x := by
  intro h
  have wF := apptFilterStep_wf (deceasedStep_wf (renameDob_wf (nameStep_wf hwf)))
  have wG := languageStep_wf wF
  have e1 : (tailPipe x90 t).hasCol "Language" =
      (languageStep (apptFilterStep (deceasedStep (renameDobStep
        (nameStep t))))).hasCol "Language" := by
    unfold tailPipe
    rw [dedupStep_hasCol, encFilterStep_hasCol, mrnStep_hasCol (by decide)]
  rw [e1] at h
  exact (colFactW_dedup (colFactW_encFilter x90 (colFactW_mrn
    ⟨wG, h, languageStep_post wF h⟩ (by decide)))).2.2

theorem tailPipe_mrn {x90 : Int} {t : DF FCell} (hwf : t.WellFormed) :
    (tailPipe x90 t).hasCol "MRN" = true →
    ∀ x ∈ (tailPipe x90 t).getColD FCell.na "MRN", ∃ v, x = FCell.s v := by
  intro h
  have wG := languageStep_wf (apptFilterStep_wf (deceasedStep_wf (renameDob_wf
    (nameStep_wf hwf))))
  have wH := mrnStep_wf wG
  have e1 : (tailPipe x90 t).hasCol "MRN" =
      (mrnStep (languageStep (apptFilterStep (deceasedStep (renameDobStep
        (nameStep t)))))).hasCol "MRN" := by
    unfold tailPipe
    rw [dedupStep_hasCol, encFilterStep_hasCol]
  rw [e1] at h
  exact (colFactW_dedup (colFactW_encFilter x90 ⟨wH, h, mrnStep_post wG h⟩)).2.2

theorem tailPipe_nodup (x90 : Int) (t : DF FCell) : (tailPipe x90 t).rows.Nodup :=
  dedupFirst_nodup _

/-- The pipeline's output is stable: for a rectangular input, every
component of `Stable` holds of `buildOutreachList today df`. -/
theorem buildOutreachList_stable (today : Int) {df : DF FCell} (hwf : df.WellFormed) :
    Stable (today - 90) (buildOutreachList today df) := by
  have hbt : buildOutreachList today df =
      tailPipe (today - 90) (apptCoerce (encCoerce df)) := rfl
  rw [hbt]
  have wA : (encCoerce df).WellFormed := setCol_wf hwf (toDatetimeCol_length df _)
  have wB : (apptCoerce (encCoerce df)).WellFormed := setCol_wf wA (toDatetimeCol_length _ _)
  have hencB : (apptCoerce (encCoerce df)).hasCol "Most Recent Encounter Date" = true := by
    rw [apptCoerce_hasCol_other (by decide)]
    exact encCoerce_hasCol_self df
  have happtB : (apptCoerce (encCoerce df)).hasCol "Next Appointment Date" = true :=
    apptCoerce_hasCol_self _
  have fBappt : ColFactW "Next Appointment Date"
      (fun x => x = FCell.na ∨ ∃ d, x = FCell.dtv d) (apptCoerce (encCoerce df)) := by
    refine ⟨wB, happtB, ?_⟩
    unfold apptCoerce
    rw [setCol_getColD_self FCell.na wA (toDatetimeCol_length _ _)]
    exact toDatetimeCol_shape _ _
  unfold Stable
  refine ⟨tailPipe_wf wB, ?_, ?_, tailPipe_enc wB hencB, ?_, tailPipe_dob,
    tailPipe_deceased wB, tailPipe_name wB, tailPipe_appt_pred wB, tailPipe_language wB,
    tailPipe_mrn wB, tailPipe_nodup _ _⟩
  · rw [tailPipe_hasCol (by decide) (by decide) (by decide) (by decide) (by decide)
      (by decide) (by decide)]
    exact hencB
  · rw [tailPipe_hasCol (by decide) (by decide) (by decide) (by decide) (by decide)
      (by decide) (by decide)]
    exact happtB
  · exact (colFactW_tail fBappt (by decide) (by decide) (by decide) (by decide) (by decide)
      (by decide) (by decide)).2.2

/-- A stable table is a fixed point of the whole pipeline. -/
theorem stable_fix {today : Int} {t : DF FCell} (hs : Stable (today - 90) t) :
    buildOutreachList today t = t := by
  obtain ⟨hwf, hencc, happtc, hencv, happtv, hdob, hdec, hname, happtp, hlang, hmrn, hnd⟩ := hs
  unfold buildOutreachList
  rw [encCoerce_fix hwf hencc (by
      intro x hx
      obtain ⟨d, hd, _⟩ := hencv x hx
      exact Or.inr ⟨d, hd⟩),
    apptCoerce_fix hwf happtc happtv,
    nameStep_fix hwf hname,
    renameDob_fix hdob,
    deceasedStep_fix hdec,
    apptFilterStep_fix happtp,
    languageStep_fix hwf hlang,
    mrnStep_fix hwf hmrn,
    encFilterStep_fix hencc hencv,
    dedupStep_fix hnd]

/-! ## C9: idempotence of the outreach filter -/

/-- **C9**: For every (rectangular) input table, applying
`build_outreach_list` a second time to its own output, with the same
fixed `today` reference, removes no further rows and changes no values:
the filtering pipeline is idempotent. -/
theorem C9_idempotent (today : Int) (df : DF FCell) (hwf : df.WellFormed) :
    buildOutreachList today (buildOutreachList today df) = buildOutreachList today df :=
  stable_fix (buildOutreachList_stable today hwf)

/-- Witness for C9 at a concrete table and `today = 20000`. -/
theorem C9_idempotent_witness :
    (DF.mk ["MRN", "Name", "Deceased", "Most Recent Encounter Date", "Next Appointment Date"]
      [[FCell.s "7", FCell.s "Smith, Jane", FCell.s "N", FCell.dtv 19000, FCell.na]]
      : DF FCell).WellFormed ∧
    buildOutreachList 20000 (buildOutreachList 20000
      (DF.mk ["MRN", "Name", "Deceased", "Most Recent Encounter Date", "Next Appointment Date"]
        [[FCell.s "7", FCell.s "Smith, Jane", FCell.s "N", FCell.dtv 19000, FCell.na]])) =
      buildOutreachList 20000
      (DF.mk ["MRN", "Name", "Deceased", "Most Recent Encounter Date", "Next Appointment Date"]
        [[FCell.s "7", FCell.s "Smith, Jane", FCell.s "N", FCell.dtv 19000, FCell.na]]) :=
  ⟨by decide, C9_idempotent 20000 _ (by decide)⟩

end Artera
